import Mathlib

/-!
# Wordle front-end core: guess scoring, constraint feedback, keyboard knowledge

A shallow embedding of the algorithmic functions of
`frontend/src/utils/wordle.utils.js` (`evaluateGuess`, `buildFeedback`, `isValidWord`,
`getFeedbackMessage`) and of the state updater of `updateLetterStates` in
`frontend/src/components/WordleGame.jsx`.

Modelling conventions
* A JavaScript string is a `List Char`; `split("")` is the identity on that list.
* `toUpperCase` / `toLowerCase` are the per-character ASCII case maps, which is what
  the JavaScript methods do on words made of the letters a-z / A-Z.
* The state of a cell is one of the four strings of `LETTER_STATES`, or `null`
  (the marker `evaluateGuess` writes between its two passes).
* A plain object used as a dictionary keyed by letter (`targetCounts`) is a function
  `Char → Option Int`, `none` standing for `undefined`.
* An object keyed by position (`green`, `yellow`) is an association list kept in
  ascending key order, the enumeration order of integer keys of an object.
* A `Set` is the list of its members in insertion order, a `Map` the list of its
  entries in insertion order.
* `forEach` and `for ... of` are left folds over the array, with the index where the
  callback receives one.
* A regular expression is the test it performs on the characters of the string.
* A call that can throw returns an `Outcome`; the value drawn from `Math.random` is an
  argument.
-/

namespace Wordle

/-! ## Data model -/

/-- State of a cell: the strings of `LETTER_STATES`, and `null`. -/
inductive State where
  | null
  | empty
  | correct
  | present
  | absent
deriving DecidableEq, Repr

/-- One cell `{ letter, state }` of a verdict row. -/
structure Cell where
  letter : Char
  state : State
deriving DecidableEq, Repr

/-- The method `toUpperCase` on a word made of the letters a-z / A-Z: the ASCII case
map, character by character. On other characters the JavaScript method differs (Unicode
case maps, UTF-16 code units), so a statement that rests on a property of the case maps
is stated for words of the letters a-z / A-Z only. -/
def toUpperCase (s : List Char) : List Char := s.map Char.toUpper

/-- The method `toLowerCase` on the one-letter string of a cell whose letter is one of
a-z / A-Z: the ASCII case map. -/
def toLowerCase (c : Char) : Char := c.toLower

/-! ## `evaluateGuess` -/

/-- The dictionary `targetCounts`: letter to remaining count, `none` for `undefined`. -/
abbrev Counts := Char → Option Int

/-- The statement `targetCounts[letter] = (targetCounts[letter] || 0) + 1`. -/
def Counts.increment (m : Counts) (letter : Char) : Counts :=
  fun c => if c = letter then some ((m letter).getD 0 + 1) else m c

/-- The statement `targetCounts[letter]--` (on `undefined` the entry becomes `NaN`, which like
`undefined` is never `> 0`; both are `none`). -/
def Counts.decrement (m : Counts) (letter : Char) : Counts :=
  fun c => if c = letter then (m letter).map (fun n => n - 1) else m c

/-- The test `targetCounts[letter] > 0`; it fails on `undefined`. -/
def Counts.positive (m : Counts) (letter : Char) : Bool :=
  match m letter with
  | some n => decide (0 < n)
  | none => false

/-- The statement `result[idx] = cell`: overwrite inside the array, append at its end
(the loops visit the indices `0, 1, 2, ...` in order, so `idx` is never past the end). -/
def arraySet (result : List Cell) (idx : Nat) (cell : Cell) : List Cell :=
  if idx < result.length then result.set idx cell else result ++ [cell]

/-- The loop `targetLetters.forEach(letter => ...)` that fills `targetCounts`. -/
def countLetters (targetLetters : List Char) : Counts :=
  targetLetters.foldl Counts.increment (fun _ => none)

/-- Body of the first `guessLetters.forEach((letter, idx) => ...)`. -/
def markCorrect (targetLetters : List Char) (acc : List Cell × Counts) (p : Nat × Char) :
    List Cell × Counts :=
  if targetLetters[p.1]? = some p.2 then
    (arraySet acc.1 p.1 ⟨p.2, State.correct⟩, acc.2.decrement p.2)
  else
    (arraySet acc.1 p.1 ⟨p.2, State.null⟩, acc.2)

/-- Body of the second `guessLetters.forEach((letter, idx) => ...)`. -/
def markPresent (acc : List Cell × Counts) (p : Nat × Char) : List Cell × Counts :=
  if (acc.1[p.1]?).map Cell.state = some State.null then
    if acc.2.positive p.2 then
      (arraySet acc.1 p.1 ⟨p.2, State.present⟩, acc.2.decrement p.2)
    else
      (arraySet acc.1 p.1 ⟨p.2, State.absent⟩, acc.2)
  else acc

/-- The function `evaluateGuess(guess, target)` of `wordle.utils.js`. -/
def evaluateGuess (guess target : List Char) : List Cell :=
  if target = [] then guess.map (fun letter => ⟨letter, State.empty⟩)
  else
    let targetLetters := toUpperCase target
    let guessLetters := toUpperCase guess
    let targetCounts := countLetters targetLetters
    let pass1 := guessLetters.enum.foldl (markCorrect targetLetters) ([], targetCounts)
    let pass2 := guessLetters.enum.foldl markPresent pass1
    pass2.1

/-! ## `buildFeedback` -/

/-- Read `obj[idx]` in an object keyed by position; `none` is `undefined`. -/
def objGet {α : Type} : List (Nat × α) → Nat → Option α
  | [], _ => none
  | (k, v) :: rest, idx => if k = idx then some v else objGet rest idx

/-- Write `obj[idx] = value`, the keys being kept in ascending order. -/
def objSet {α : Type} : List (Nat × α) → Nat → α → List (Nat × α)
  | [], idx, value => [(idx, value)]
  | (k, v) :: rest, idx, value =>
    if k = idx then (idx, value) :: rest
    else if idx < k then (idx, value) :: (k, v) :: rest
    else (k, v) :: objSet rest idx value

/-- The call `set.add(letter)` on a `Set` kept in insertion order. -/
def setAdd (set : List Char) (letter : Char) : List Char :=
  if letter ∈ set then set else set ++ [letter]

/-- The object `{ green, yellow, grey }` returned by `buildFeedback`. -/
structure Feedback where
  green : List (Nat × Char)
  yellow : List (Nat × List Char)
  grey : List Char
deriving DecidableEq, Repr

/-- The locals of `buildFeedback`: the feedback under construction and the two sets. -/
structure Compiler where
  feedback : Feedback
  greenLetters : List Char
  yellowLetters : List Char
deriving DecidableEq, Repr

/-- Body of `row.forEach((cell, idx) => ...)`. -/
def visitCell (st : Compiler) (p : Nat × Cell) : Compiler :=
  let idx := p.1
  let cell := p.2
  let letter := toLowerCase cell.letter
  if cell.state = State.correct then
    { feedback := { st.feedback with green := objSet st.feedback.green idx letter },
      greenLetters := setAdd st.greenLetters letter,
      yellowLetters := st.yellowLetters }
  else if cell.state = State.present then
    let yellow1 :=
      if (objGet st.feedback.yellow idx).isNone then objSet st.feedback.yellow idx []
      else st.feedback.yellow
    let entry := (objGet yellow1 idx).getD []
    let yellow2 := if letter ∈ entry then yellow1 else objSet yellow1 idx (entry ++ [letter])
    { feedback := { st.feedback with yellow := yellow2 },
      greenLetters := st.greenLetters,
      yellowLetters := setAdd st.yellowLetters letter }
  else if cell.state = State.absent then
    let isGreenOrYellow := letter ∈ st.greenLetters ∨ letter ∈ st.yellowLetters
    if ¬ isGreenOrYellow ∧ letter ∉ st.feedback.grey then
      { st with feedback := { st.feedback with grey := st.feedback.grey ++ [letter] } }
    else st
  else st

/-- Body of `results.forEach((row) => ...)`. -/
def visitRow (st : Compiler) (row : List Cell) : Compiler :=
  row.enum.foldl visitCell st

/-- The function `buildFeedback(results)` of `wordle.utils.js`. -/
def buildFeedback (results : List (List Cell)) : Feedback :=
  (results.foldl visitRow
    { feedback := { green := [], yellow := [], grey := [] },
      greenLetters := [], yellowLetters := [] }).feedback

/-! ## `updateLetterStates` -/

/-- Read `map.get(letter)`; `none` is `undefined`. -/
def mapGet : List (Char × State) → Char → Option State
  | [], _ => none
  | (k, v) :: rest, letter => if k = letter then some v else mapGet rest letter

/-- Write `map.set(letter, state)`: an existing key keeps its place, a new key goes last. -/
def mapSet : List (Char × State) → Char → State → List (Char × State)
  | [], letter, state => [(letter, state)]
  | (k, v) :: rest, letter, state =>
    if k = letter then (letter, state) :: rest else (k, v) :: mapSet rest letter state

/-- Body of `for (const result of newResults)`; `!current` holds for `undefined` and
for `null`, the state strings being truthy. -/
def foldCell (updated : List (Char × State)) (result : Cell) : List (Char × State) :=
  let current := mapGet updated result.letter
  if (current = none ∨ current = some State.null)
      ∨ (current = some State.absent ∧ result.state ≠ State.absent)
      ∨ (current = some State.present ∧ result.state = State.correct) then
    mapSet updated result.letter result.state
  else updated

/-- The updater that `updateLetterStates(newResults)` passes to `setLetterStates`:
from the previous map `prev` to the new map (`foldKnowledge` in the specification). -/
def updateLetterStates (prev : List (Char × State)) (newResults : List Cell) :
    List (Char × State) :=
  newResults.foldl foldCell prev


/-! ## Single-pass description of the two passes of `evaluateGuess`

These functions are not in the source: they describe what the two `forEach` loops
compute, and are proved equal to them below. -/

/-- Cells written by the first pass, the target being consumed alongside the guess. -/
def firstMarks : List Char → List Char → List Cell
  | _, [] => []
  | us, c :: cs =>
    ⟨c, if us.head? = some c then State.correct else State.null⟩ :: firstMarks us.tail cs

/-- Counts left by the first pass. -/
def spendExact : Counts → List Char → List Char → Counts
  | cnt, _, [] => cnt
  | cnt, us, c :: cs =>
    spendExact (if us.head? = some c then cnt.decrement c else cnt) us.tail cs

/-- Final cells, computed left to right from the counts left by the first pass. -/
def scanRow : List Char → List Char → Counts → List Cell
  | _, [], _ => []
  | us, c :: cs, cnt =>
    if us.head? = some c then ⟨c, State.correct⟩ :: scanRow us.tail cs cnt
    else if cnt.positive c then ⟨c, State.present⟩ :: scanRow us.tail cs (cnt.decrement c)
    else ⟨c, State.absent⟩ :: scanRow us.tail cs cnt

/-- Value of a count, `undefined` read as `0`. -/
def Counts.value (m : Counts) (letter : Char) : Int := (m letter).getD 0

/-! ## Quantities the statements speak about -/

/-- Number of positions where the guess and the target both carry `L`. -/
def exactMatches (ts gs : List Char) (L : Char) : Nat :=
  (List.range gs.length).countP (fun j => decide (gs[j]? = some L ∧ ts[j]? = some L))

/-- Number of positions `j < i` where the guess carries `L` and the target does not
carry `L` at `j` (a position that is not an exact match). -/
def earlierMisses (ts gs : List Char) (i : Nat) (L : Char) : Nat :=
  (List.range i).countP (fun j => decide (gs[j]? = some L ∧ ts[j]? ≠ some L))

/-- Number of cells of a row that carry `L` and are `correct` or `present`. -/
def creditedCells (row : List Cell) (L : Char) : Nat :=
  row.countP (fun cell =>
    decide (cell.letter = L ∧ (cell.state = State.correct ∨ cell.state = State.present)))

/-- A word made of the letters a-z / A-Z only. -/
def isAlphabetic (word : List Char) : Bool := word.all Char.isAlpha

/-! ## Quantities the statements on `buildFeedback` speak about -/

/-- The cell of a row at index `i` when it has state `s`: its lowercased letter. -/
def letterAt (s : State) (row : List Cell) (i : Nat) : Option Char :=
  match row[i]? with
  | some cell => if cell.state = s then some (toLowerCase cell.letter) else none
  | none => none

/-- Lowercased letters of the cells at index `i` that have state `s`, one per row that
has such a cell, in the order of the rows. -/
def lettersAt (s : State) (results : List (List Cell)) (i : Nat) : List Char :=
  results.filterMap (fun row => letterAt s row i)

/-- A list without its repetitions, each letter kept at its first occurrence. -/
def firstOccurrences : List Char → List Char
  | [] => []
  | x :: xs => x :: (firstOccurrences xs).filter (fun y => decide (y ≠ x))

/-! ## Quantities the statements on `updateLetterStates` speak about -/

/-- Rank of a knowledge state in the order `unknown < absent < present < correct`;
a letter without an entry is unknown. -/
def knowledgeRank : Option State → Nat
  | some State.correct => 3
  | some State.present => 2
  | some State.absent => 1
  | _ => 0

/-- The larger, in that order, of a knowledge state and an observed state. -/
def strongest (current : Option State) (observed : State) : Option State :=
  if knowledgeRank current < knowledgeRank (some observed) then some observed else current

/-! ## `isValidWord` -/

/-- A JavaScript value, as far as `isValidWord` tells values apart: only a primitive
string has `typeof word === 'string'`. -/
inductive Value where
  | undefined
  | null
  | boolean (b : Bool)
  | number (n : Int)
  | string (word : List Char)
  | object
deriving DecidableEq, Repr

/-- The property `word.length`: the number of UTF-16 code units of the string. -/
def jsLength (word : List Char) : Nat :=
  (word.map (fun c => if c.toNat < 65536 then 1 else 2)).sum

/-- The character class `[a-zA-Z]` of the two patterns. -/
def inLetterClass (c : Char) : Bool :=
  (decide ('a' ≤ c) && decide (c ≤ 'z')) || (decide ('A' ≤ c) && decide (c ≤ 'Z'))

/-- The test `/^[a-zA-Z]+$/.test(word)`: one or more characters, all of the class, from
the start of the string to its end. -/
def testLetters (word : List Char) : Bool :=
  !word.isEmpty && word.all inLetterClass

/-- The test of the constant `VALIDATION_REGEX.WORD`, that is `/^[a-zA-Z]{5}$/`: exactly
five characters of the class from the start of the string to its end. -/
def testWordPattern : List Char → Bool
  | [a, b, c, d, e] =>
    inLetterClass a && inLetterClass b && inLetterClass c && inLetterClass d && inLetterClass e
  | _ => false

/-- The function `isValidWord(word)` of `wordle.utils.js`. -/
def isValidWord : Value → Bool
  | Value.string word =>
    if word = [] then false
    else decide (jsLength word = 5) && testLetters word
  | _ => false

/-! ## `getFeedbackMessage` -/

/-- What a call gives: a returned string, a returned `undefined`, or a thrown
`TypeError`. -/
inductive Outcome where
  | returns (message : String)
  | undefined
  | typeError
deriving DecidableEq, Repr

/-- What `messages[language]` evaluates to: one of the two own properties `fr` and `en`
with their pools, a value inherited from `Object.prototype` (truthy, and without the
properties `win` and `lose`), or `undefined`. -/
inductive Entry where
  | pools (win lose : List String)
  | inherited
  | undefined
deriving DecidableEq, Repr

/-- The property `messages.fr`. -/
def messagesFr : Entry :=
  Entry.pools
    ["Génial ! 🎉", "Excellent ! 👏", "Bravo ! 🎊", "Magnifique ! ⭐", "Parfait ! 💯",
      "Impressionnant ! 🔥"]
    ["Presque ! Réessayez 💪", "Ce n\x27est pas grave, continuez ! 🎯",
      "Vous y êtes presque ! 🚀"]

/-- The property `messages.en`. -/
def messagesEn : Entry :=
  Entry.pools
    ["Awesome! 🎉", "Excellent! 👏", "Well done! 🎊", "Amazing! ⭐", "Perfect! 💯",
      "Impressive! 🔥"]
    ["Almost! Try again 💪", "Don\x27t give up! 🎯", "You\x27re getting closer! 🚀"]

/-- Names of the properties that the object literal `messages` inherits from
`Object.prototype`. -/
def inheritedNames : List String :=
  ["constructor", "hasOwnProperty", "isPrototypeOf", "propertyIsEnumerable",
    "toLocaleString", "toString", "valueOf", "__proto__", "__defineGetter__",
    "__defineSetter__", "__lookupGetter__", "__lookupSetter__"]

/-- The property read `messages[language]`. -/
def messagesGet (language : String) : Entry :=
  if language = "fr" then messagesFr
  else if language = "en" then messagesEn
  else if language ∈ inheritedNames then Entry.inherited
  else Entry.undefined

/-- The element read `pool[index]`, where `pool` is `lang.win` or `lang.lose`: a
`TypeError` when `pool` is `undefined`. -/
def poolGet (lang : Entry) (isWon : Bool) (index : Nat) : Outcome :=
  match lang with
  | Entry.pools win lose =>
    match (if isWon then win else lose)[index]? with
    | some message => Outcome.returns message
    | none => Outcome.undefined
  | _ => Outcome.typeError

/-- The function `getFeedbackMessage(isWon, attempts, language)` of `wordle.utils.js`;
`roll` is the value of `Math.floor(Math.random() * pool.length)`. -/
def getFeedbackMessage (isWon : Bool) (attempts : Int) (language : String) (roll : Nat) :
    Outcome :=
  let lang := match messagesGet language with
    | Entry.undefined => messagesFr
    | entry => entry
  if isWon then
    if attempts = 1 then poolGet lang isWon 4
    else if attempts ≤ 3 then poolGet lang isWon 0
    else if attempts ≤ 4 then poolGet lang isWon 1
    else poolGet lang isWon 2
  else poolGet lang isWon roll

/-! ## The game loop, as far as the statements need it -/

/-- The history `results` after the guesses were submitted in order against `secret`:
one row `evaluateGuess(guess, secret)` per guess. -/
def historyOf (secret : List Char) (guesses : List (List Char)) : List (List Cell) :=
  guesses.map (fun guess => evaluateGuess guess secret)

/-! ## Quantities the statement on `grey` speaks about -/

/-- A cell that carries the lowercased letter `L` with one of the states `correct`,
`present`, `absent`. -/
def observes (L : Char) (cell : Cell) : Bool :=
  decide (toLowerCase cell.letter = L) &&
    (decide (cell.state = State.correct) || decide (cell.state = State.present)
      || decide (cell.state = State.absent))

/-- State of the first cell of the list that carries `L` with one of the states
`correct`, `present`, `absent`; `none` when there is no such cell. -/
def firstVerdict (cells : List Cell) (L : Char) : Option State :=
  (cells.find? (observes L)).map Cell.state

/-- Lowercased letters of the `absent` cells, in the order of the list. -/
def absentLetters (cells : List Cell) : List Char :=
  (cells.filter (fun cell => decide (cell.state = State.absent))).map
    (fun cell => toLowerCase cell.letter)

/-- Letters whose first verdict is `absent`, each once, in the order of their first
`absent` cell. -/
def expectedGrey (cells : List Cell) : List Char :=
  (firstOccurrences (absentLetters cells)).filter
    (fun L => decide (firstVerdict cells L = some State.absent))

/-- The locals of `buildFeedback` before the first row is visited. -/
def emptyCompiler : Compiler :=
  { feedback := { green := [], yellow := [], grey := [] },
    greenLetters := [], yellowLetters := [] }

/-! ## The two loops of `evaluateGuess` are the single-pass scan -/

theorem arraySet_end (acc : List Cell) (x : Cell) :
    arraySet acc acc.length x = acc ++ [x] := by
  simp [arraySet]

theorem arraySet_middle (done : List Cell) (m x : Cell) (ms : List Cell) :
    arraySet (done ++ m :: ms) done.length x = done ++ x :: ms := by
  simp [arraySet]

theorem getElem?_middle (done : List Cell) (m : Cell) (ms : List Cell) :
    (done ++ m :: ms)[done.length]? = some m := by
  induction done with
  | nil => simp
  | cons d done ih => simpa using ih

theorem head?_drop_eq (ts : List Char) (n : Nat) : (ts.drop n).head? = ts[n]? := by
  induction ts generalizing n with
  | nil => simp
  | cons t ts ih =>
    cases n with
    | zero => simp
    | succ n => simp

theorem tail_drop_eq (ts : List Char) (n : Nat) : (ts.drop n).tail = ts.drop (n + 1) := by
  induction ts generalizing n with
  | nil => simp
  | cons t ts ih =>
    cases n with
    | zero => simp
    | succ n => simp

theorem foldl_markCorrect (ts : List Char) (cs : List Char) :
    ∀ (n : Nat) (acc : List Cell) (cnt : Counts), acc.length = n →
      (List.enumFrom n cs).foldl (markCorrect ts) (acc, cnt)
        = (acc ++ firstMarks (ts.drop n) cs, spendExact cnt (ts.drop n) cs) := by
  induction cs with
  | nil => intro n acc cnt _; simp [firstMarks, spendExact]
  | cons c cs ih =>
    intro n acc cnt hn
    subst hn
    simp only [List.enumFrom_cons, List.foldl_cons, firstMarks, spendExact, head?_drop_eq,
      tail_drop_eq]
    by_cases h : ts[acc.length]? = some c
    · simp only [markCorrect, h, if_true, arraySet_end]
      rw [ih (acc.length + 1) _ _ (by simp)]
      simp
    · simp only [markCorrect, h, if_false, arraySet_end]
      rw [ih (acc.length + 1) _ _ (by simp)]
      simp

theorem markPresent_middle (done : List Cell) (m : Cell) (ms : List Cell) (cnt : Counts)
    (c : Char) :
    markPresent (done ++ m :: ms, cnt) (done.length, c)
      = if m.state = State.null then
          (if cnt.positive c then (done ++ ⟨c, State.present⟩ :: ms, cnt.decrement c)
           else (done ++ ⟨c, State.absent⟩ :: ms, cnt))
        else (done ++ m :: ms, cnt) := by
  unfold markPresent
  simp only [getElem?_middle, Option.map_some', Option.some.injEq, arraySet_middle]

theorem foldl_markPresent (ts : List Char) (cs : List Char) :
    ∀ (n : Nat) (done : List Cell) (cnt : Counts), done.length = n →
      ((List.enumFrom n cs).foldl markPresent (done ++ firstMarks (ts.drop n) cs, cnt)).1
        = done ++ scanRow (ts.drop n) cs cnt := by
  induction cs with
  | nil => intro n done cnt _; simp [firstMarks, scanRow]
  | cons c cs ih =>
    intro n done cnt hn
    subst hn
    simp only [List.enumFrom_cons, List.foldl_cons, firstMarks, scanRow, head?_drop_eq,
      tail_drop_eq, markPresent_middle]
    by_cases h : ts[done.length]? = some c
    · simp only [h, if_true]
      have := ih (done.length + 1) (done ++ [⟨c, State.correct⟩]) cnt (by simp)
      simpa using this
    · by_cases hp : cnt.positive c = true
      · simp only [h, if_false, hp, if_true]
        have := ih (done.length + 1) (done ++ [⟨c, State.present⟩]) (cnt.decrement c) (by simp)
        simpa using this
      · simp only [h, if_false, hp]
        have := ih (done.length + 1) (done ++ [⟨c, State.absent⟩]) cnt (by simp)
        simpa using this

/-- On a non-empty target, `evaluateGuess` is the left-to-right scan started from the
counts left by the exact matches. -/
theorem evaluateGuess_eq_scanRow (guess target : List Char) (h : target ≠ []) :
    evaluateGuess guess target
      = scanRow (toUpperCase target) (toUpperCase guess)
          (spendExact (countLetters (toUpperCase target)) (toUpperCase target)
            (toUpperCase guess)) := by
  unfold evaluateGuess
  simp only [h, if_false, List.enum]
  have h1 := foldl_markCorrect (toUpperCase target) (toUpperCase guess) 0 [] 
    (countLetters (toUpperCase target)) rfl
  simp only [List.drop_zero, List.nil_append] at h1
  rw [h1]
  have h2 := foldl_markPresent (toUpperCase target) (toUpperCase guess) 0 []
    (spendExact (countLetters (toUpperCase target)) (toUpperCase target) (toUpperCase guess)) rfl
  simpa using h2

/-! ## Counting positions: unfolding lemmas -/

theorem getElem?_succ_tail (us : List Char) (j : Nat) : us[j + 1]? = us.tail[j]? := by
  cases us <;> simp

theorem getElem?_zero_head (us : List Char) : us[0]? = us.head? := by
  cases us <;> simp

theorem exactMatches_nil (ts : List Char) (L : Char) : exactMatches ts [] L = 0 := by
  simp [exactMatches]

theorem exactMatches_cons (ts : List Char) (c : Char) (cs : List Char) (L : Char) :
    exactMatches ts (c :: cs) L
      = (if c = L ∧ ts.head? = some L then 1 else 0) + exactMatches ts.tail cs L := by
  unfold exactMatches
  rw [List.length_cons, List.range_succ_eq_map, List.countP_cons, List.countP_map]
  have hfun : ((fun j => decide ((c :: cs)[j]? = some L ∧ ts[j]? = some L)) ∘ Nat.succ)
      = (fun j => decide (cs[j]? = some L ∧ ts.tail[j]? = some L)) := by
    funext j
    simp only [Function.comp_apply, Nat.succ_eq_add_one, List.getElem?_cons_succ,
      getElem?_succ_tail]
  rw [hfun]
  simp only [List.getElem?_cons_zero, getElem?_zero_head, Option.some.injEq]
  by_cases h : c = L ∧ ts.head? = some L
  · simp [h]; omega
  · simp [h]

theorem earlierMisses_zero (ts gs : List Char) (L : Char) : earlierMisses ts gs 0 L = 0 := by
  simp [earlierMisses]

theorem earlierMisses_succ (ts : List Char) (c : Char) (cs : List Char) (i : Nat) (L : Char) :
    earlierMisses ts (c :: cs) (i + 1) L
      = (if c = L ∧ ts.head? ≠ some L then 1 else 0) + earlierMisses ts.tail cs i L := by
  unfold earlierMisses
  rw [List.range_succ_eq_map, List.countP_cons, List.countP_map]
  have hfun : ((fun j => decide ((c :: cs)[j]? = some L ∧ ts[j]? ≠ some L)) ∘ Nat.succ)
      = (fun j => decide (cs[j]? = some L ∧ ts.tail[j]? ≠ some L)) := by
    funext j
    simp only [Function.comp_apply, Nat.succ_eq_add_one, List.getElem?_cons_succ,
      getElem?_succ_tail]
  rw [hfun]
  simp only [List.getElem?_cons_zero, getElem?_zero_head, Option.some.injEq]
  by_cases h : c = L ∧ ts.head? ≠ some L
  · simp [h]; omega
  · simp [h]

/-! ## The counts -/

theorem foldl_increment (ts : List Char) :
    ∀ (m : Counts) (L : Char), (ts.foldl Counts.increment m) L
      = if L ∈ ts then some ((m L).getD 0 + (ts.count L : Int)) else m L := by
  induction ts with
  | nil => intro m L; simp
  | cons t ts ih =>
    intro m L
    rw [List.foldl_cons, ih]
    by_cases hLt : L = t
    · subst hLt
      by_cases hmem : L ∈ ts
      · simp [hmem, Counts.increment]; omega
      · simp [hmem, Counts.increment, List.count_eq_zero_of_not_mem hmem]
    · have hne : t ≠ L := fun h => hLt h.symm
      by_cases hmem : L ∈ ts
      · simp [hmem, hLt, hne, Counts.increment, List.count_cons]
      · simp [hmem, hLt, Counts.increment]

theorem countLetters_apply (ts : List Char) (L : Char) :
    countLetters ts L = if L ∈ ts then some (ts.count L : Int) else none := by
  unfold countLetters
  rw [foldl_increment]
  simp

theorem spendExact_apply (cs : List Char) :
    ∀ (cnt : Counts) (us : List Char) (L : Char),
      spendExact cnt us cs L = (cnt L).map (fun n => n - (exactMatches us cs L : Int)) := by
  induction cs with
  | nil => intro cnt us L; simp [spendExact, exactMatches_nil]
  | cons c cs ih =>
    intro cnt us L
    rw [spendExact, ih, exactMatches_cons]
    by_cases hm : us.head? = some c
    · by_cases hL : c = L
      · subst hL
        cases hc : cnt c <;> simp [hm, Counts.decrement, hc]
        omega
      · have hL' : L ≠ c := fun h => hL h.symm
        simp [hm, hL, hL', Counts.decrement]
    · by_cases hL : c = L
      · subst hL
        simp [hm]
      · simp [hm, hL]

theorem exactMatches_le_count (gs : List Char) :
    ∀ (ts : List Char) (L : Char), exactMatches ts gs L ≤ ts.count L := by
  induction gs with
  | nil => intro ts L; simp [exactMatches_nil]
  | cons c cs ih =>
    intro ts L
    rw [exactMatches_cons]
    rcases ts with _ | ⟨t, ts⟩
    · have := ih [] L
      simp at this ⊢
      exact this
    · have := ih ts L
      by_cases h : t = L
      · subst h
        by_cases hc : c = t <;> simp [hc, List.count_cons] <;> omega
      · have h' : ¬ (c = L ∧ t = L) := fun hh => h hh.2
        simp [h, h', List.count_cons]
        exact this

/-- After the first pass the count of `L` is its number of occurrences in the target
minus the number of exact matches on `L`. -/
theorem value_after_exact (ts gs : List Char) (L : Char) :
    (spendExact (countLetters ts) ts gs).value L
      = (ts.count L : Int) - (exactMatches ts gs L : Int) := by
  unfold Counts.value
  rw [spendExact_apply, countLetters_apply]
  by_cases hmem : L ∈ ts
  · simp [hmem]
  · have h0 : ts.count L = 0 := List.count_eq_zero_of_not_mem hmem
    have h1 := exactMatches_le_count gs ts L
    have h2 : exactMatches ts gs L = 0 := by omega
    simp [hmem, h0, h2]

theorem positive_iff (cnt : Counts) (c : Char) :
    cnt.positive c = true ↔ 0 < cnt.value c := by
  unfold Counts.positive Counts.value
  cases cnt c <;> simp

theorem value_decrement_self (cnt : Counts) (c : Char) (h : cnt.positive c = true) :
    (cnt.decrement c).value c = cnt.value c - 1 := by
  unfold Counts.positive at h
  unfold Counts.value Counts.decrement
  cases hc : cnt c with
  | none => simp [hc] at h
  | some n => simp

theorem value_decrement_other (cnt : Counts) (c L : Char) (h : L ≠ c) :
    (cnt.decrement c).value L = cnt.value L := by
  simp [Counts.value, Counts.decrement, h]

/-! ## Properties of the scan -/

theorem scanRow_letters (cs : List Char) :
    ∀ (us : List Char) (cnt : Counts), (scanRow us cs cnt).map Cell.letter = cs := by
  induction cs with
  | nil => intro us cnt; simp [scanRow]
  | cons c cs ih =>
    intro us cnt
    unfold scanRow
    split_ifs <;> simp [ih]

theorem scanRow_length (cs us : List Char) (cnt : Counts) :
    (scanRow us cs cnt).length = cs.length := by
  have h := congrArg List.length (scanRow_letters cs us cnt)
  simpa using h

theorem scanRow_cons_correct (us : List Char) (c : Char) (cs : List Char) (cnt : Counts)
    (hm : us.head? = some c) :
    scanRow us (c :: cs) cnt = ⟨c, State.correct⟩ :: scanRow us.tail cs cnt := by
  simp [scanRow, hm]

theorem scanRow_cons_present (us : List Char) (c : Char) (cs : List Char) (cnt : Counts)
    (hm : us.head? ≠ some c) (hp : cnt.positive c = true) :
    scanRow us (c :: cs) cnt = ⟨c, State.present⟩ :: scanRow us.tail cs (cnt.decrement c) := by
  simp [scanRow, hm, hp]

theorem scanRow_cons_absent (us : List Char) (c : Char) (cs : List Char) (cnt : Counts)
    (hm : us.head? ≠ some c) (hp : ¬ cnt.positive c = true) :
    scanRow us (c :: cs) cnt = ⟨c, State.absent⟩ :: scanRow us.tail cs cnt := by
  simp [scanRow, hm, hp]

theorem creditedCells_cons (x : Cell) (row : List Cell) (L : Char) :
    creditedCells (x :: row) L
      = (if x.letter = L ∧ (x.state = State.correct ∨ x.state = State.present) then 1 else 0)
        + creditedCells row L := by
  unfold creditedCells
  rw [List.countP_cons]
  by_cases h : x.letter = L ∧ (x.state = State.correct ∨ x.state = State.present)
  · simp [h]; omega
  · simp [h]

theorem scanRow_correct_iff (cs : List Char) :
    ∀ (us : List Char) (cnt : Counts) (i : Nat), i < cs.length →
      (((scanRow us cs cnt)[i]?).map Cell.state = some State.correct ↔ cs[i]? = us[i]?) := by
  induction cs with
  | nil => intro us cnt i hi; simp at hi
  | cons c cs ih =>
    intro us cnt i hi
    cases i with
    | zero =>
      rw [getElem?_zero_head us]
      by_cases hm : us.head? = some c
      · rw [scanRow_cons_correct us c cs cnt hm]
        simp [hm]
      · have hm' : ¬ some c = us.head? := fun h => hm h.symm
        by_cases hp : cnt.positive c = true
        · rw [scanRow_cons_present us c cs cnt hm hp]
          simp [hm']
        · rw [scanRow_cons_absent us c cs cnt hm hp]
          simp [hm']
    | succ i =>
      have hi' : i < cs.length := by simpa using hi
      rw [getElem?_succ_tail us, List.getElem?_cons_succ]
      by_cases hm : us.head? = some c
      · rw [scanRow_cons_correct us c cs cnt hm, List.getElem?_cons_succ]
        exact ih us.tail cnt i hi'
      · by_cases hp : cnt.positive c = true
        · rw [scanRow_cons_present us c cs cnt hm hp, List.getElem?_cons_succ]
          exact ih us.tail _ i hi'
        · rw [scanRow_cons_absent us c cs cnt hm hp, List.getElem?_cons_succ]
          exact ih us.tail _ i hi'

theorem scanRow_miss_state (cs : List Char) :
    ∀ (us : List Char) (cnt : Counts) (i : Nat) (L : Char),
      cs[i]? = some L → us[i]? ≠ some L →
      ((scanRow us cs cnt)[i]?).map Cell.state
        = some (if (earlierMisses us cs i L : Int) < cnt.value L then State.present
                else State.absent) := by
  induction cs with
  | nil => intro us cnt i L h; simp at h
  | cons c cs ih =>
    intro us cnt i L hL hmiss
    cases i with
    | zero =>
      simp only [List.getElem?_cons_zero, Option.some.injEq] at hL
      subst hL
      rw [getElem?_zero_head us] at hmiss
      rw [earlierMisses_zero]
      by_cases hp : cnt.positive c = true
      · have := (positive_iff cnt c).1 hp
        rw [scanRow_cons_present us c cs cnt hmiss hp]
        simp [this]
      · have : ¬ 0 < cnt.value c := fun h => hp ((positive_iff cnt c).2 h)
        rw [scanRow_cons_absent us c cs cnt hmiss hp]
        simp [this]
    | succ i =>
      rw [List.getElem?_cons_succ] at hL
      rw [getElem?_succ_tail us] at hmiss
      rw [earlierMisses_succ]
      by_cases hm : us.head? = some c
      · have h0 : ¬ (c = L ∧ us.head? ≠ some L) := by
          rintro ⟨rfl, h⟩; exact h hm
        rw [scanRow_cons_correct us c cs cnt hm, List.getElem?_cons_succ,
          ih us.tail cnt i L hL hmiss]
        simp [h0]
      · by_cases hp : cnt.positive c = true
        · rw [scanRow_cons_present us c cs cnt hm hp, List.getElem?_cons_succ,
            ih us.tail _ i L hL hmiss]
          by_cases hcL : c = L
          · subst hcL
            rw [value_decrement_self cnt c hp]
            have h1 : (c = c ∧ us.head? ≠ some c) := ⟨rfl, hm⟩
            rw [if_pos h1]
            have : ((earlierMisses us.tail cs i c : Int) < cnt.value c - 1)
                ↔ (((1 + earlierMisses us.tail cs i c : Nat) : Int) < cnt.value c) := by
              push_cast; omega
            simp only [this]
          · have h1 : ¬ (c = L ∧ us.head? ≠ some L) := fun h => hcL h.1
            rw [value_decrement_other cnt c L (fun h => hcL h.symm), if_neg h1]
            simp
        · rw [scanRow_cons_absent us c cs cnt hm hp, List.getElem?_cons_succ,
            ih us.tail _ i L hL hmiss]
          by_cases hcL : c = L
          · subst hcL
            have hv : ¬ 0 < cnt.value c := fun h => hp ((positive_iff cnt c).2 h)
            have h1 : (c = c ∧ us.head? ≠ some c) := ⟨rfl, hm⟩
            rw [if_pos h1]
            have ha : ¬ ((earlierMisses us.tail cs i c : Int) < cnt.value c) := by omega
            have hb : ¬ (((1 + earlierMisses us.tail cs i c : Nat) : Int) < cnt.value c) := by
              push_cast; omega
            rw [if_neg ha, if_neg hb]
          · have h1 : ¬ (c = L ∧ us.head? ≠ some L) := fun h => hcL h.1
            rw [if_neg h1]
            simp

theorem scanRow_credited (cs : List Char) :
    ∀ (us : List Char) (cnt : Counts) (L : Char),
      creditedCells (scanRow us cs cnt) L
        = exactMatches us cs L + min (earlierMisses us cs cs.length L) (cnt.value L).toNat := by
  induction cs with
  | nil => intro us cnt L; simp [scanRow, creditedCells, exactMatches_nil, earlierMisses_zero]
  | cons c cs ih =>
    intro us cnt L
    rw [exactMatches_cons, List.length_cons, earlierMisses_succ]
    by_cases hm : us.head? = some c
    · rw [scanRow_cons_correct us c cs cnt hm, creditedCells_cons, ih us.tail cnt L]
      by_cases hcL : c = L
      · subst hcL
        simp [hm]
        omega
      · simp [hcL]
    · by_cases hp : cnt.positive c = true
      · rw [scanRow_cons_present us c cs cnt hm hp, creditedCells_cons,
          ih us.tail (cnt.decrement c) L]
        by_cases hcL : c = L
        · subst hcL
          have hv := (positive_iff cnt c).1 hp
          rw [value_decrement_self cnt c hp]
          simp [hm]
          omega
        · rw [value_decrement_other cnt c L (fun h => hcL h.symm)]
          simp [hcL]
      · rw [scanRow_cons_absent us c cs cnt hm hp, creditedCells_cons, ih us.tail cnt L]
        by_cases hcL : c = L
        · subst hcL
          have hv : ¬ 0 < cnt.value c := fun h => hp ((positive_iff cnt c).2 h)
          simp [hm]
          omega
        · simp [hcL]

/-! ## Claims on `evaluateGuess` -/

theorem evaluateGuess_length (guess target : List Char) (h : target ≠ []) :
    (evaluateGuess guess target).length = guess.length := by
  rw [evaluateGuess_eq_scanRow guess target h, scanRow_length]
  simp [toUpperCase]

theorem evaluateGuess_letters (guess target : List Char) (h : target ≠ []) :
    (evaluateGuess guess target).map Cell.letter = toUpperCase guess := by
  rw [evaluateGuess_eq_scanRow guess target h, scanRow_letters]

theorem toUpperCase_length (word : List Char) : (toUpperCase word).length = word.length := by
  simp [toUpperCase]

/-- C1. For a non-empty secret `S` and a guess `G` of the same length, both made of
letters a-z / A-Z, the cell at every position `i` of `evaluateGuess G S` exists and has
state `correct` if and only if the `i`-th letter of `G` uppercased equals the `i`-th
letter of `S` uppercased. -/
theorem evaluateGuess_correct_iff (G S : List Char) (hS : S ≠ [])
    (_hlen : G.length = S.length) (_hGa : isAlphabetic G = true)
    (_hSa : isAlphabetic S = true)
    (i : Nat) (hi : i < G.length) :
    ∃ cell, (evaluateGuess G S)[i]? = some cell ∧
      (cell.state = State.correct ↔ (toUpperCase G)[i]? = (toUpperCase S)[i]?) := by
  have hlt : i < (evaluateGuess G S).length := by
    rw [evaluateGuess_length G S hS]; exact hi
  refine ⟨(evaluateGuess G S)[i], List.getElem?_eq_getElem hlt, ?_⟩
  have hi' : i < (toUpperCase G).length := by rw [toUpperCase_length]; exact hi
  have key := scanRow_correct_iff (toUpperCase G) (toUpperCase S)
    (spendExact (countLetters (toUpperCase S)) (toUpperCase S) (toUpperCase G)) i hi'
  rw [← evaluateGuess_eq_scanRow G S hS, List.getElem?_eq_getElem hlt] at key
  simpa using key

/-- C1, at the secret ROBOT and the guess ROOMY, position 1. -/
theorem evaluateGuess_correct_iff_witness :
    "ROBOT".toList ≠ [] ∧ "ROOMY".toList.length = "ROBOT".toList.length ∧
    isAlphabetic "ROOMY".toList = true ∧ isAlphabetic "ROBOT".toList = true ∧
    1 < "ROOMY".toList.length ∧
    ∃ cell, (evaluateGuess "ROOMY".toList "ROBOT".toList)[1]? = some cell ∧
      (cell.state = State.correct ↔
        (toUpperCase "ROOMY".toList)[1]? = (toUpperCase "ROBOT".toList)[1]?) :=
  ⟨by decide, by decide, by decide, by decide, by decide,
    evaluateGuess_correct_iff "ROOMY".toList "ROBOT".toList (by decide) (by decide)
      (by decide) (by decide) 1 (by decide)⟩

/-- C2. For a non-empty secret `S`, a guess `G` of the same length and a letter `L`, the
number of cells of `evaluateGuess G S` that carry `L` and are `correct` or `present` is at
most the number of occurrences of `L` in `S` uppercased. -/
theorem evaluateGuess_credited_le (G S : List Char) (hS : S ≠ [])
    (_hlen : G.length = S.length) (L : Char) :
    creditedCells (evaluateGuess G S) L ≤ (toUpperCase S).count L := by
  rw [evaluateGuess_eq_scanRow G S hS, scanRow_credited, value_after_exact]
  have h := exactMatches_le_count (toUpperCase G) (toUpperCase S) L
  omega

/-- C2, at the secret APPLE, the guess PAPER and the letter P. -/
theorem evaluateGuess_credited_le_witness :
    "APPLE".toList ≠ [] ∧ "PAPER".toList.length = "APPLE".toList.length ∧
    creditedCells (evaluateGuess "PAPER".toList "APPLE".toList) 'P'
      ≤ (toUpperCase "APPLE".toList).count 'P' :=
  ⟨by decide, by decide,
    evaluateGuess_credited_le "PAPER".toList "APPLE".toList (by decide) (by decide) 'P'⟩

/-- C3. For a non-empty secret `S` and a guess `G` of the same length, at a position `i`
whose guess letter `L` differs from the secret's letter at `i`, the cell of
`evaluateGuess G S` carries `L`, and its state is `present` if and only if the number of
earlier positions with guess letter `L` that are not exact matches is strictly less than
the occurrences of `L` in `S` minus the number of positions where `G` and `S` both have
`L`; otherwise its state is `absent`. -/
theorem evaluateGuess_present_iff (G S : List Char) (hS : S ≠ [])
    (_hlen : G.length = S.length) (i : Nat) (L : Char)
    (hG : (toUpperCase G)[i]? = some L) (hne : (toUpperCase S)[i]? ≠ some L) :
    ∃ cell, (evaluateGuess G S)[i]? = some cell ∧ cell.letter = L ∧
      (cell.state = State.present ↔
        (earlierMisses (toUpperCase S) (toUpperCase G) i L : Int)
          < ((toUpperCase S).count L : Int)
            - (exactMatches (toUpperCase S) (toUpperCase G) L : Int)) ∧
      (¬ ((earlierMisses (toUpperCase S) (toUpperCase G) i L : Int)
          < ((toUpperCase S).count L : Int)
            - (exactMatches (toUpperCase S) (toUpperCase G) L : Int))
        → cell.state = State.absent) := by
  have hi' : i < (toUpperCase G).length := by
    by_contra hcon
    rw [List.getElem?_eq_none (by omega)] at hG
    exact Option.noConfusion hG
  have hlt : i < (evaluateGuess G S).length := by
    rw [evaluateGuess_length G S hS, ← toUpperCase_length]; exact hi'
  have hcell := List.getElem?_eq_getElem hlt
  refine ⟨(evaluateGuess G S)[i], hcell, ?_, ?_⟩
  · have hl := congrArg (fun l => l[i]?) (evaluateGuess_letters G S hS)
    simp only [List.getElem?_map, hcell, hG, Option.map_some', Option.some.injEq] at hl
    exact hl
  · have key := scanRow_miss_state (toUpperCase G) (toUpperCase S)
      (spendExact (countLetters (toUpperCase S)) (toUpperCase S) (toUpperCase G)) i L hG hne
    rw [← evaluateGuess_eq_scanRow G S hS, hcell, value_after_exact] at key
    simp only [Option.map_some', Option.some.injEq] at key
    by_cases hc : (earlierMisses (toUpperCase S) (toUpperCase G) i L : Int)
        < ((toUpperCase S).count L : Int) - (exactMatches (toUpperCase S) (toUpperCase G) L : Int)
    · rw [if_pos hc] at key
      exact ⟨⟨fun _ => hc, fun _ => key⟩, fun h => absurd hc h⟩
    · rw [if_neg hc] at key
      refine ⟨⟨fun h => ?_, fun h => absurd h hc⟩, fun _ => key⟩
      rw [key] at h
      exact State.noConfusion h

/-- C3, at the secret CRANE and the guess EERIE, position 0 (letter E, whose only
occurrence in the secret is taken by the exact match at position 4). -/
theorem evaluateGuess_present_iff_witness :
    "CRANE".toList ≠ [] ∧ "EERIE".toList.length = "CRANE".toList.length ∧
    (toUpperCase "EERIE".toList)[0]? = some 'E' ∧
    (toUpperCase "CRANE".toList)[0]? ≠ some 'E' ∧
    ∃ cell, (evaluateGuess "EERIE".toList "CRANE".toList)[0]? = some cell ∧ cell.letter = 'E' ∧
      (cell.state = State.present ↔
        (earlierMisses (toUpperCase "CRANE".toList) (toUpperCase "EERIE".toList) 0 'E' : Int)
          < ((toUpperCase "CRANE".toList).count 'E' : Int)
            - (exactMatches (toUpperCase "CRANE".toList) (toUpperCase "EERIE".toList) 'E' : Int)) ∧
      (¬ ((earlierMisses (toUpperCase "CRANE".toList) (toUpperCase "EERIE".toList) 0 'E' : Int)
          < ((toUpperCase "CRANE".toList).count 'E' : Int)
            - (exactMatches (toUpperCase "CRANE".toList) (toUpperCase "EERIE".toList) 'E' : Int))
        → cell.state = State.absent) :=
  ⟨by decide, by decide, by decide, by decide,
    evaluateGuess_present_iff "EERIE".toList "CRANE".toList (by decide) (by decide) 0 'E'
      (by decide) (by decide)⟩

/-- C4. With an empty secret, `evaluateGuess` returns one cell per character of the
guess, each carrying that character with state `empty`; the guess HELLO gives five
`empty` cells. -/
theorem evaluateGuess_empty_target (G : List Char) :
    evaluateGuess G [] = G.map (fun letter => (⟨letter, State.empty⟩ : Cell)) ∧
    (evaluateGuess G []).length = G.length ∧
    (evaluateGuess "HELLO".toList []).map Cell.state
      = [State.empty, State.empty, State.empty, State.empty, State.empty] := by
  refine ⟨by simp [evaluateGuess], by simp [evaluateGuess], by decide⟩

/-- C5. `evaluateGuess` is case-insensitive: guesses equal after uppercasing and
non-empty secrets equal after uppercasing (all made of letters a-z / A-Z) give the same
verdict, letters and states. -/
theorem evaluateGuess_case_insensitive (G G' S S' : List Char) (hS : S ≠ []) (hS' : S' ≠ [])
    (_hGa : isAlphabetic G = true) (_hGa' : isAlphabetic G' = true)
    (_hSa : isAlphabetic S = true) (_hSa' : isAlphabetic S' = true)
    (hG : toUpperCase G = toUpperCase G') (hSS : toUpperCase S = toUpperCase S') :
    evaluateGuess G S = evaluateGuess G' S' := by
  unfold evaluateGuess
  simp only [hS, hS', if_false, hG, hSS]

/-- C5, at the guesses roomy / RoOmY and the secrets Robot / ROBOT. -/
theorem evaluateGuess_case_insensitive_witness :
    "Robot".toList ≠ [] ∧ "ROBOT".toList ≠ [] ∧
    isAlphabetic "roomy".toList = true ∧ isAlphabetic "RoOmY".toList = true ∧
    isAlphabetic "Robot".toList = true ∧ isAlphabetic "ROBOT".toList = true ∧
    toUpperCase "roomy".toList = toUpperCase "RoOmY".toList ∧
    toUpperCase "Robot".toList = toUpperCase "ROBOT".toList ∧
    evaluateGuess "roomy".toList "Robot".toList = evaluateGuess "RoOmY".toList "ROBOT".toList :=
  ⟨by decide, by decide, by decide, by decide, by decide, by decide, by decide, by decide,
    evaluateGuess_case_insensitive "roomy".toList "RoOmY".toList "Robot".toList "ROBOT".toList
      (by decide) (by decide) (by decide) (by decide) (by decide) (by decide) (by decide)
      (by decide)⟩

/-! ## Objects keyed by position -/

theorem objGet_objSet {α : Type} (obj : List (Nat × α)) (k : Nat) (v : α) (j : Nat) :
    objGet (objSet obj k v) j = if k = j then some v else objGet obj j := by
  induction obj with
  | nil => simp [objSet, objGet]
  | cons e rest ih =>
    obtain ⟨k', v'⟩ := e
    unfold objSet
    by_cases h1 : k' = k
    · subst h1
      by_cases h2 : k' = j <;> simp [objGet, h2]
    · by_cases h2 : k < k'
      · by_cases h3 : k = j
        · subst h3
          simp [objGet, h1, h2]
        · simp [objGet, h1, h2, h3]
      · simp only [h1, h2, if_false, objGet, ih]
        by_cases h3 : k' = j
        · have : ¬ k = j := fun h => h1 (h3.trans h.symm)
          simp [h3, this]
        · simp [h3]

/-! ## `buildFeedback`: the green positions -/

theorem visitCell_green (st : Compiler) (idx : Nat) (cell : Cell) (i : Nat) :
    objGet (visitCell st (idx, cell)).feedback.green i
      = if idx = i ∧ cell.state = State.correct then some (toLowerCase cell.letter)
        else objGet st.feedback.green i := by
  unfold visitCell
  by_cases hc : cell.state = State.correct
  · simp only [hc, if_true, objGet_objSet, and_true]
  · simp only [hc, if_false, and_false]
    split_ifs <;> rfl

theorem enum_concat (row : List Cell) (x : Cell) :
    (row ++ [x]).enum = row.enum ++ [(row.length, x)] := by
  simp [List.enum, List.enumFrom_append]

theorem visitRow_concat (st : Compiler) (row : List Cell) (x : Cell) :
    visitRow st (row ++ [x]) = visitCell (visitRow st row) (row.length, x) := by
  unfold visitRow
  rw [enum_concat, List.foldl_append]
  rfl

theorem letterAt_concat (s : State) (row : List Cell) (x : Cell) (i : Nat) :
    letterAt s (row ++ [x]) i
      = if row.length = i ∧ x.state = s then some (toLowerCase x.letter)
        else letterAt s row i := by
  unfold letterAt
  rcases Nat.lt_trichotomy i row.length with h | h | h
  · have hne : ¬ row.length = i := by omega
    rw [List.getElem?_append_left h]
    simp [hne]
  · subst h
    rw [List.getElem?_append_right (le_refl _)]
    simp
  · have hne : ¬ row.length = i := by omega
    rw [List.getElem?_eq_none (by simp; omega), List.getElem?_eq_none (by omega)]
    simp [hne]

theorem visitRow_green (row : List Cell) (st : Compiler) (i : Nat) :
    objGet (visitRow st row).feedback.green i
      = match letterAt State.correct row i with
        | some letter => some letter
        | none => objGet st.feedback.green i := by
  induction row using List.reverseRecOn with
  | nil => simp [visitRow, letterAt]
  | append_singleton row x ih =>
    rw [visitRow_concat, visitCell_green, letterAt_concat, ih]
    by_cases h : row.length = i ∧ x.state = State.correct
    · simp [h]
    · simp [h]

theorem lettersAt_concat (s : State) (results : List (List Cell)) (row : List Cell) (i : Nat) :
    lettersAt s (results ++ [row]) i
      = lettersAt s results i ++ (match letterAt s row i with
          | some letter => [letter]
          | none => []) := by
  unfold lettersAt
  rw [List.filterMap_append]
  cases h : letterAt s row i <;> simp [List.filterMap_cons, h]

theorem mem_lettersAt (s : State) (results : List (List Cell)) (i : Nat) (c : Char) :
    c ∈ lettersAt s results i ↔
      ∃ row ∈ results, ∃ cell, row[i]? = some cell ∧ cell.state = s ∧ toLowerCase cell.letter = c := by
  unfold lettersAt
  rw [List.mem_filterMap]
  constructor
  · rintro ⟨row, hrow, h⟩
    refine ⟨row, hrow, ?_⟩
    unfold letterAt at h
    cases hc : row[i]? with
    | none => simp [hc] at h
    | some cell =>
      rw [hc] at h
      by_cases hs : cell.state = s
      · simp only [hs, if_true, Option.some.injEq] at h
        exact ⟨cell, rfl, hs, h⟩
      · simp [hs] at h
  · rintro ⟨row, hrow, cell, hc, hs, hl⟩
    refine ⟨row, hrow, ?_⟩
    unfold letterAt
    rw [hc]
    simp [hs, hl]

theorem lettersAt_ne_nil_iff (s : State) (results : List (List Cell)) (i : Nat) :
    lettersAt s results i ≠ [] ↔
      ∃ row ∈ results, ∃ cell, row[i]? = some cell ∧ cell.state = s := by
  constructor
  · intro h
    obtain ⟨c, hc⟩ := List.exists_mem_of_ne_nil _ h
    obtain ⟨row, hrow, cell, h1, h2, _⟩ := (mem_lettersAt s results i c).1 hc
    exact ⟨row, hrow, cell, h1, h2⟩
  · rintro ⟨row, hrow, cell, h1, h2⟩
    have : toLowerCase cell.letter ∈ lettersAt s results i :=
      (mem_lettersAt s results i _).2 ⟨row, hrow, cell, h1, h2, rfl⟩
    exact List.ne_nil_of_mem this

theorem buildFeedback_concat (results : List (List Cell)) (row : List Cell) :
    buildFeedback (results ++ [row])
      = (visitRow (results.foldl visitRow
          { feedback := { green := [], yellow := [], grey := [] },
            greenLetters := [], yellowLetters := [] }) row).feedback := by
  unfold buildFeedback
  rw [List.foldl_append]
  rfl

theorem buildFeedback_green (results : List (List Cell)) (i : Nat) :
    objGet (buildFeedback results).green i = (lettersAt State.correct results i).getLast? := by
  induction results using List.reverseRecOn with
  | nil => simp [buildFeedback, lettersAt, objGet]
  | append_singleton results row ih =>
    rw [buildFeedback_concat, visitRow_green, lettersAt_concat]
    cases h : letterAt State.correct row i with
    | none =>
      simp only [List.append_nil]
      exact ih
    | some letter =>
      simp [List.getLast?_append]

/-! ## `buildFeedback`: the yellow positions -/

theorem visitCell_yellow (st : Compiler) (idx : Nat) (cell : Cell) (i : Nat) :
    objGet (visitCell st (idx, cell)).feedback.yellow i
      = if idx = i ∧ cell.state = State.present then
          some (setAdd ((objGet st.feedback.yellow i).getD []) (toLowerCase cell.letter))
        else objGet st.feedback.yellow i := by
  unfold visitCell
  by_cases hc : cell.state = State.correct
  · have hp : ¬ (idx = i ∧ cell.state = State.present) := by rw [hc]; simp
    rw [if_pos hc, if_neg hp]
  · by_cases hp : cell.state = State.present
    · simp only [hc, if_false, hp, if_true, and_true]
      by_cases hi : idx = i
      · subst hi
        cases hy : objGet st.feedback.yellow idx with
        | none =>
          simp [hy, objGet_objSet, setAdd]
        | some entry =>
          by_cases hm : toLowerCase cell.letter ∈ entry
          · simp [hy, setAdd, hm]
          · simp [hy, objGet_objSet, setAdd, hm]
      · cases hy : objGet st.feedback.yellow idx with
        | none =>
          simp [hy, objGet_objSet, hi]
        | some entry =>
          by_cases hm : toLowerCase cell.letter ∈ entry
          · simp [hy, hm, hi]
          · simp [hy, objGet_objSet, hm, hi]
    · simp only [hc, if_false, hp, and_false]
      split_ifs <;> rfl

theorem visitRow_yellow (row : List Cell) (st : Compiler) (i : Nat) :
    objGet (visitRow st row).feedback.yellow i
      = match letterAt State.present row i with
        | some letter => some (setAdd ((objGet st.feedback.yellow i).getD []) letter)
        | none => objGet st.feedback.yellow i := by
  induction row using List.reverseRecOn with
  | nil => simp [visitRow, letterAt]
  | append_singleton row x ih =>
    rw [visitRow_concat, visitCell_yellow, letterAt_concat, ih]
    by_cases h : row.length = i ∧ x.state = State.present
    · have hnone : letterAt State.present row i = none := by
        unfold letterAt
        rw [List.getElem?_eq_none (by omega)]
      simp [h, hnone]
    · simp [h]

theorem mem_firstOccurrences (l : List Char) (a : Char) :
    a ∈ firstOccurrences l ↔ a ∈ l := by
  induction l with
  | nil => simp [firstOccurrences]
  | cons x xs ih =>
    simp only [firstOccurrences, List.mem_cons, List.mem_filter, ih, decide_eq_true_eq]
    by_cases h : a = x <;> simp [h]

theorem nodup_firstOccurrences (l : List Char) : (firstOccurrences l).Nodup := by
  induction l with
  | nil => simp [firstOccurrences]
  | cons x xs ih =>
    simp only [firstOccurrences, List.nodup_cons, List.mem_filter, decide_eq_true_eq]
    exact ⟨fun h => h.2 rfl, ih.filter _⟩

theorem firstOccurrences_concat (l : List Char) (a : Char) :
    firstOccurrences (l ++ [a]) = setAdd (firstOccurrences l) a := by
  induction l with
  | nil => simp [firstOccurrences, setAdd]
  | cons x xs ih =>
    rw [List.cons_append, firstOccurrences, ih, firstOccurrences]
    unfold setAdd
    simp only [mem_firstOccurrences, List.mem_cons, List.mem_filter, decide_eq_true_eq]
    by_cases hax : a = x
    · subst hax
      by_cases hm : a ∈ xs <;> simp [hm, List.filter_append]
    · by_cases hm : a ∈ xs <;> simp [hm, hax, List.filter_append]

theorem buildFeedback_yellow (results : List (List Cell)) (i : Nat) :
    objGet (buildFeedback results).yellow i
      = if lettersAt State.present results i = [] then none
        else some (firstOccurrences (lettersAt State.present results i)) := by
  induction results using List.reverseRecOn with
  | nil => simp [buildFeedback, lettersAt, objGet]
  | append_singleton results row ih =>
    rw [buildFeedback_concat, visitRow_yellow, lettersAt_concat]
    have ih' : objGet (results.foldl visitRow
          { feedback := { green := [], yellow := [], grey := [] },
            greenLetters := [], yellowLetters := [] }).feedback.yellow i
        = if lettersAt State.present results i = [] then none
          else some (firstOccurrences (lettersAt State.present results i)) := ih
    cases h : letterAt State.present row i with
    | none =>
      simp only [List.append_nil]
      exact ih'
    | some letter =>
      simp only [ih', firstOccurrences_concat]
      by_cases hnil : lettersAt State.present results i = []
      · simp [hnil, firstOccurrences]
      · simp [hnil]

/-! ## Claims on `buildFeedback` -/

/-- C6, evaluated on the code. With the secret CRANE, the guess EERIE scores E absent at
positions 0 and 1 and correct at position 4, and the next guess ELBOW scores E present at
position 0. `buildFeedback` on that history lists `e` in `yellow[0]` and in `green[4]`,
and still has `e` in `grey`: the letter was put in `grey` at the first absent cell, before
any correct or present cell for it had been visited. -/
theorem buildFeedback_grey_keeps_letter_seen_later :
    (evaluateGuess "EERIE".toList "CRANE".toList).map Cell.state
      = [State.absent, State.absent, State.present, State.absent, State.correct] ∧
    (evaluateGuess "ELBOW".toList "CRANE".toList).map Cell.state
      = [State.present, State.absent, State.absent, State.absent, State.absent] ∧
    buildFeedback [evaluateGuess "EERIE".toList "CRANE".toList,
        evaluateGuess "ELBOW".toList "CRANE".toList]
      = { green := [(4, 'e')], yellow := [(0, ['e']), (2, ['r'])],
          grey := ['e', 'i', 'l', 'b', 'o', 'w'] } := by
  decide

/-- C7, evaluated on the code. With the secret CRANE and the single guess EERIE, the
letter E occurs in the secret and is correct at position 4 of the verdict, yet `e` is in
`grey`, because the absent cell at position 0 is visited first. -/
theorem buildFeedback_grey_has_secret_letter :
    'E' ∈ toUpperCase "CRANE".toList ∧
    'e' ∈ (buildFeedback [evaluateGuess "EERIE".toList "CRANE".toList]).grey ∧
    objGet (buildFeedback [evaluateGuess "EERIE".toList "CRANE".toList]).green 4 = some 'e' ∧
    (buildFeedback [evaluateGuess "EERIE".toList "CRANE".toList]).grey = ['e', 'i'] := by
  decide

/-- C8. For every history and every position `i`, `green` has an entry at `i` if and only
if some row has a `correct` cell at index `i`; the entry is the lowercased letter of the
`correct` cell at `i` of the last such row. -/
theorem buildFeedback_green_entry (results : List (List Cell)) (i : Nat) :
    ((∃ letter, objGet (buildFeedback results).green i = some letter) ↔
      ∃ row ∈ results, ∃ cell, row[i]? = some cell ∧ cell.state = State.correct) ∧
    objGet (buildFeedback results).green i = (lettersAt State.correct results i).getLast? ∧
    (∀ (before after : List (List Cell)) (row : List Cell) (cell : Cell),
      results = before ++ row :: after → row[i]? = some cell → cell.state = State.correct →
      (∀ later ∈ after, ∀ other, later[i]? = some other → other.state ≠ State.correct) →
      objGet (buildFeedback results).green i = some (toLowerCase cell.letter)) := by
  refine ⟨?_, buildFeedback_green results i, ?_⟩
  · rw [buildFeedback_green, ← lettersAt_ne_nil_iff]
    constructor
    · rintro ⟨letter, h⟩ hnil
      rw [hnil] at h
      exact Option.noConfusion h
    · intro h
      exact ⟨(lettersAt State.correct results i).getLast h, List.getLast?_eq_getLast _ h⟩
  · intro before after row cell hres hcell hstate hafter
    rw [buildFeedback_green, hres]
    have hnil : lettersAt State.correct after i = [] := by
      by_contra hne
      obtain ⟨later, hl, other, h1, h2⟩ := (lettersAt_ne_nil_iff _ _ _).1 hne
      exact hafter later hl other h1 h2
    have hrow : letterAt State.correct row i = some (toLowerCase cell.letter) := by
      unfold letterAt
      rw [hcell]
      simp [hstate]
    have hsplit : lettersAt State.correct (before ++ row :: after) i
        = lettersAt State.correct before i ++ [toLowerCase cell.letter] := by
      have happ : lettersAt State.correct (before ++ row :: after) i
          = lettersAt State.correct before i
            ++ (lettersAt State.correct [row] i ++ lettersAt State.correct after i) := by
        unfold lettersAt
        rw [← List.filterMap_append, ← List.filterMap_append]
        rfl
      rw [happ, hnil, List.append_nil]
      unfold lettersAt
      simp [List.filterMap_cons, hrow]
    rw [hsplit]
    simp

/-- C8, on the history of the guesses EERIE and ELBOW against the secret CRANE, at
position 4: the first row is the last one correct there, with the letter E. -/
theorem buildFeedback_green_entry_witness :
    [evaluateGuess "EERIE".toList "CRANE".toList, evaluateGuess "ELBOW".toList "CRANE".toList]
      = [] ++ evaluateGuess "EERIE".toList "CRANE".toList
          :: [evaluateGuess "ELBOW".toList "CRANE".toList] ∧
    (evaluateGuess "EERIE".toList "CRANE".toList)[4]? = some ⟨'E', State.correct⟩ ∧
    objGet (buildFeedback [evaluateGuess "EERIE".toList "CRANE".toList,
      evaluateGuess "ELBOW".toList "CRANE".toList]).green 4 = some 'e' :=
  ⟨rfl, by decide,
    (buildFeedback_green_entry [evaluateGuess "EERIE".toList "CRANE".toList,
        evaluateGuess "ELBOW".toList "CRANE".toList] 4).2.2
      [] [evaluateGuess "ELBOW".toList "CRANE".toList]
      (evaluateGuess "EERIE".toList "CRANE".toList) ⟨'E', State.correct⟩ rfl (by decide) rfl
      (by
        intro later hl other h
        rw [List.mem_singleton] at hl
        subst hl
        have h4 : (evaluateGuess "ELBOW".toList "CRANE".toList)[4]?
            = some ⟨'W', State.absent⟩ := by decide
        rw [h4] at h
        cases h
        decide)⟩

/-- C9. For every history and every position `i`, `yellow` has an entry at `i` if and
only if some row has a `present` cell at index `i`; the entry holds exactly the lowercased
letters scored `present` at index `i`, each once, in order of first occurrence in the
history. -/
theorem buildFeedback_yellow_entry (results : List (List Cell)) (i : Nat) :
    ((∃ entry, objGet (buildFeedback results).yellow i = some entry) ↔
      ∃ row ∈ results, ∃ cell, row[i]? = some cell ∧ cell.state = State.present) ∧
    (∀ entry, objGet (buildFeedback results).yellow i = some entry →
      entry = firstOccurrences (lettersAt State.present results i) ∧
      entry.Nodup ∧
      ∀ c, c ∈ entry ↔
        ∃ row ∈ results, ∃ cell,
          row[i]? = some cell ∧ cell.state = State.present ∧ toLowerCase cell.letter = c) := by
  constructor
  · rw [buildFeedback_yellow, ← lettersAt_ne_nil_iff]
    by_cases hnil : lettersAt State.present results i = []
    · simp [hnil]
    · simp [hnil]
  · intro entry h
    rw [buildFeedback_yellow] at h
    by_cases hnil : lettersAt State.present results i = []
    · simp [hnil] at h
    · simp only [hnil, if_false, Option.some.injEq] at h
      subst h
      refine ⟨rfl, nodup_firstOccurrences _, fun c => ?_⟩
      rw [mem_firstOccurrences, mem_lettersAt]

/-- C9, on the history of the guesses SPEED and ELBOW against the secret ABIDE, at
position 2, where E and then B are scored present. -/
theorem buildFeedback_yellow_entry_witness :
    objGet (buildFeedback [evaluateGuess "SPEED".toList "ABIDE".toList,
      evaluateGuess "ELBOW".toList "ABIDE".toList]).yellow 2 = some ['e', 'b'] ∧
    (['e', 'b'] = firstOccurrences (lettersAt State.present
        [evaluateGuess "SPEED".toList "ABIDE".toList,
          evaluateGuess "ELBOW".toList "ABIDE".toList] 2) ∧
      ['e', 'b'].Nodup ∧
      ∀ c, c ∈ ['e', 'b'] ↔
        ∃ row ∈ [evaluateGuess "SPEED".toList "ABIDE".toList,
            evaluateGuess "ELBOW".toList "ABIDE".toList], ∃ cell,
          row[2]? = some cell ∧ cell.state = State.present ∧ toLowerCase cell.letter = c) :=
  ⟨by decide,
    (buildFeedback_yellow_entry [evaluateGuess "SPEED".toList "ABIDE".toList,
      evaluateGuess "ELBOW".toList "ABIDE".toList] 2).2 ['e', 'b'] (by decide)⟩

/-! ## The knowledge map -/

theorem mapGet_mapSet (m : List (Char × State)) (k : Char) (v : State) (j : Char) :
    mapGet (mapSet m k v) j = if k = j then some v else mapGet m j := by
  induction m with
  | nil => simp [mapSet, mapGet]
  | cons e rest ih =>
    obtain ⟨k', v'⟩ := e
    unfold mapSet
    by_cases h1 : k' = k
    · subst h1
      by_cases h2 : k' = j <;> simp [mapGet, h2]
    · simp only [h1, if_false, mapGet, ih]
      by_cases h3 : k' = j
      · have : ¬ k = j := fun h => h1 (h3.trans h.symm)
        simp [h3, this]
      · simp [h3]

theorem mem_of_mapGet (m : List (Char × State)) (L : Char) (s : State)
    (h : mapGet m L = some s) : (L, s) ∈ m := by
  induction m with
  | nil => simp [mapGet] at h
  | cons e rest ih =>
    obtain ⟨k, v⟩ := e
    unfold mapGet at h
    by_cases hk : k = L
    · simp only [hk, if_true, Option.some.injEq] at h
      simp [hk, h]
    · simp only [hk, if_false] at h
      exact List.mem_cons_of_mem _ (ih h)

theorem mem_mapSet (m : List (Char × State)) (k : Char) (v : State) (e : Char × State)
    (h : e ∈ mapSet m k v) : e ∈ m ∨ e = (k, v) := by
  induction m with
  | nil =>
    simp only [mapSet, List.mem_singleton] at h
    exact Or.inr h
  | cons e' rest ih =>
    obtain ⟨k', v'⟩ := e'
    unfold mapSet at h
    by_cases h1 : k' = k
    · simp only [h1, if_true, List.mem_cons] at h
      rcases h with h | h
      · exact Or.inr h
      · exact Or.inl (List.mem_cons_of_mem _ h)
    · simp only [h1, if_false, List.mem_cons] at h
      rcases h with h | h
      · exact Or.inl (by simp [h])
      · rcases ih h with h | h
        · exact Or.inl (List.mem_cons_of_mem _ h)
        · exact Or.inr h

theorem knowledgeRank_strongest (current : Option State) (observed : State) :
    knowledgeRank (strongest current observed)
      = max (knowledgeRank current) (knowledgeRank (some observed)) := by
  unfold strongest
  split_ifs with h
  · omega
  · omega

theorem foldCell_get (K : List (Char × State)) (cell : Cell) (L : Char)
    (hK : ∀ e ∈ K, e.2 = State.absent ∨ e.2 = State.present ∨ e.2 = State.correct)
    (hc : cell.state = State.absent ∨ cell.state = State.present ∨ cell.state = State.correct) :
    mapGet (foldCell K cell) L
      = if cell.letter = L then strongest (mapGet K L) cell.state else mapGet K L := by
  by_cases hL : cell.letter = L
  · subst hL
    rw [if_pos rfl]
    unfold foldCell
    cases hcur : mapGet K cell.letter with
    | none =>
      simp [mapGet_mapSet, strongest, knowledgeRank]
      rcases hc with h | h | h <;> simp [h]
    | some s =>
      have hs := hK _ (mem_of_mapGet K _ _ hcur)
      simp only at hs
      rcases hs with h | h | h <;> rcases hc with h' | h' | h' <;>
        simp [h, h', mapGet_mapSet, strongest, knowledgeRank, hcur]
  · rw [if_neg hL]
    unfold foldCell
    simp only
    split_ifs
    · rw [mapGet_mapSet, if_neg hL]
    · rfl

theorem foldCell_values (K : List (Char × State)) (cell : Cell)
    (hK : ∀ e ∈ K, e.2 = State.absent ∨ e.2 = State.present ∨ e.2 = State.correct)
    (hc : cell.state = State.absent ∨ cell.state = State.present ∨ cell.state = State.correct) :
    ∀ e ∈ foldCell K cell, e.2 = State.absent ∨ e.2 = State.present ∨ e.2 = State.correct := by
  intro e he
  unfold foldCell at he
  simp only at he
  split_ifs at he
  · rcases mem_mapSet _ _ _ _ he with h | h
    · exact hK e h
    · rw [h]; exact hc
  · exact hK e he

theorem updateLetterStates_cons (K : List (Char × State)) (cell : Cell) (V : List Cell) :
    updateLetterStates K (cell :: V) = updateLetterStates (foldCell K cell) V := by
  simp [updateLetterStates]

theorem updateLetterStates_get (V : List Cell) :
    ∀ (K : List (Char × State)) (L : Char),
      (∀ e ∈ K, e.2 = State.absent ∨ e.2 = State.present ∨ e.2 = State.correct) →
      (∀ cell ∈ V,
        cell.state = State.absent ∨ cell.state = State.present ∨ cell.state = State.correct) →
      mapGet (updateLetterStates K V) L
        = (V.filter (fun cell => decide (cell.letter = L))).foldl
            (fun best cell => strongest best cell.state) (mapGet K L) := by
  induction V with
  | nil => intro K L _ _; simp [updateLetterStates]
  | cons cell V ih =>
    intro K L hK hV
    have hc := hV cell (List.mem_cons_self _ _)
    have hV' : ∀ c ∈ V, c.state = State.absent ∨ c.state = State.present
        ∨ c.state = State.correct := fun c hc' => hV c (List.mem_cons_of_mem _ hc')
    rw [updateLetterStates_cons, ih (foldCell K cell) L (foldCell_values K cell hK hc) hV',
      foldCell_get K cell L hK hc]
    by_cases hL : cell.letter = L
    · simp [List.filter_cons, hL]
    · simp [List.filter_cons, hL]

theorem updateLetterStates_values (V : List Cell) :
    ∀ (K : List (Char × State)),
      (∀ e ∈ K, e.2 = State.absent ∨ e.2 = State.present ∨ e.2 = State.correct) →
      (∀ cell ∈ V,
        cell.state = State.absent ∨ cell.state = State.present ∨ cell.state = State.correct) →
      ∀ e ∈ updateLetterStates K V,
        e.2 = State.absent ∨ e.2 = State.present ∨ e.2 = State.correct := by
  induction V with
  | nil => intro K hK _; simpa [updateLetterStates] using hK
  | cons cell V ih =>
    intro K hK hV
    rw [updateLetterStates_cons]
    exact ih (foldCell K cell)
      (foldCell_values K cell hK (hV cell (List.mem_cons_self _ _)))
      (fun c hc' => hV c (List.mem_cons_of_mem _ hc'))

theorem knowledgeRank_foldl_strongest (cells : List Cell) :
    ∀ (start : Option State),
      knowledgeRank (cells.foldl (fun best cell => strongest best cell.state) start)
        = (cells.map (fun cell => knowledgeRank (some cell.state))).foldl max
            (knowledgeRank start) := by
  induction cells with
  | nil => intro start; simp
  | cons cell cells ih =>
    intro start
    simp only [List.foldl_cons, List.map_cons]
    rw [ih, knowledgeRank_strongest]

/-! ## Claims on `updateLetterStates` -/

/-- C10. For a map `K` whose values are `absent`, `present` or `correct` and a verdict `V`
whose cells are `absent`, `present` or `correct` (no `empty` cell), the state of every
letter `L` after the update is the maximum, in the order
`unknown < absent < present < correct`, of the state of `L` in `K` (unknown without an
entry) and of the states of all the cells of `V` that carry `L`. -/
theorem updateLetterStates_is_maximum (K : List (Char × State)) (V : List Cell)
    (hK : ∀ e ∈ K, e.2 = State.absent ∨ e.2 = State.present ∨ e.2 = State.correct)
    (hV : ∀ cell ∈ V,
      cell.state = State.absent ∨ cell.state = State.present ∨ cell.state = State.correct)
    (L : Char) :
    mapGet (updateLetterStates K V) L
        = (V.filter (fun cell => decide (cell.letter = L))).foldl
            (fun best cell => strongest best cell.state) (mapGet K L) ∧
    knowledgeRank (mapGet (updateLetterStates K V) L)
        = ((V.filter (fun cell => decide (cell.letter = L))).map
            (fun cell => knowledgeRank (some cell.state))).foldl max
              (knowledgeRank (mapGet K L)) ∧
    (∀ s, mapGet (updateLetterStates K V) L = some s →
      s = State.absent ∨ s = State.present ∨ s = State.correct) := by
  have hget := updateLetterStates_get V K L hK hV
  refine ⟨hget, ?_, ?_⟩
  · rw [hget, knowledgeRank_foldl_strongest]
  · intro s hs
    exact updateLetterStates_values V K hK hV _ (mem_of_mapGet _ _ _ hs)

/-- C10, at the map holding I as present and the verdict of EERIE against CRANE, in
which E is absent at positions 0 and 1 and correct at position 4, for the letter E. -/
theorem updateLetterStates_is_maximum_witness :
    (∀ e ∈ [('I', State.present)],
      e.2 = State.absent ∨ e.2 = State.present ∨ e.2 = State.correct) ∧
    (∀ cell ∈ evaluateGuess "EERIE".toList "CRANE".toList,
      cell.state = State.absent ∨ cell.state = State.present ∨ cell.state = State.correct) ∧
    (mapGet (updateLetterStates [('I', State.present)]
        (evaluateGuess "EERIE".toList "CRANE".toList)) 'E'
        = ((evaluateGuess "EERIE".toList "CRANE".toList).filter
            (fun cell => decide (cell.letter = 'E'))).foldl
            (fun best cell => strongest best cell.state) (mapGet [('I', State.present)] 'E') ∧
    knowledgeRank (mapGet (updateLetterStates [('I', State.present)]
        (evaluateGuess "EERIE".toList "CRANE".toList)) 'E')
        = (((evaluateGuess "EERIE".toList "CRANE".toList).filter
            (fun cell => decide (cell.letter = 'E'))).map
            (fun cell => knowledgeRank (some cell.state))).foldl max
              (knowledgeRank (mapGet [('I', State.present)] 'E')) ∧
    (∀ s, mapGet (updateLetterStates [('I', State.present)]
        (evaluateGuess "EERIE".toList "CRANE".toList)) 'E' = some s →
      s = State.absent ∨ s = State.present ∨ s = State.correct)) :=
  ⟨by decide, by decide,
    updateLetterStates_is_maximum [('I', State.present)]
      (evaluateGuess "EERIE".toList "CRANE".toList) (by decide) (by decide) 'E'⟩

/-! ## Concrete scenarios and the exact supply count -/

/-- C14. The duplicate-letter scenario: `evaluateGuess("PAPER", "APPLE")` returns five
cells with the letters P, A, P, E, R and the states present, present, correct, present,
absent. -/
theorem evaluateGuess_paper_apple :
    evaluateGuess "PAPER".toList "APPLE".toList
      = [⟨'P', State.present⟩, ⟨'A', State.present⟩, ⟨'P', State.correct⟩,
         ⟨'E', State.present⟩, ⟨'R', State.absent⟩] := by
  decide

/-- C15. The end-to-end scenario: `evaluateGuess("ROOMY", "ROBOT")` has the states
correct, correct, present, absent, absent, and `buildFeedback` on the one-row history made
of that verdict returns green = {0: r, 1: o}, yellow = {2: [o]}, grey = [m, y]. -/
theorem buildFeedback_roomy_robot :
    (evaluateGuess "ROOMY".toList "ROBOT".toList).map Cell.state
      = [State.correct, State.correct, State.present, State.absent, State.absent] ∧
    buildFeedback [evaluateGuess "ROOMY".toList "ROBOT".toList]
      = { green := [(0, 'r'), (1, 'o')], yellow := [(2, ['o'])], grey := ['m', 'y'] } := by
  decide

theorem matches_add_misses (gs : List Char) :
    ∀ (ts : List Char) (L : Char),
      exactMatches ts gs L + earlierMisses ts gs gs.length L = gs.count L := by
  induction gs with
  | nil => intro ts L; simp [exactMatches_nil, earlierMisses_zero]
  | cons c cs ih =>
    intro ts L
    rw [exactMatches_cons, List.length_cons, earlierMisses_succ, List.count_cons]
    have h := ih ts.tail L
    by_cases hc : c = L
    · subst hc
      by_cases hm : ts.head? = some c <;> simp [hm] <;> omega
    · simp [hc]
      omega

theorem evaluateGuess_credited (G S : List Char) (hS : S ≠ []) (L : Char) :
    creditedCells (evaluateGuess G S) L
      = min ((toUpperCase G).count L) ((toUpperCase S).count L) := by
  rw [evaluateGuess_eq_scanRow G S hS, scanRow_credited, value_after_exact]
  have h1 := exactMatches_le_count (toUpperCase G) (toUpperCase S) L
  have h2 := matches_add_misses (toUpperCase G) (toUpperCase S) L
  omega

/-- C18. The supply bound is tight: for a non-empty secret `S`, a guess `G` of the same
length and a letter `L`, the number of cells of `evaluateGuess G S` that carry `L` and are
`correct` or `present` equals the minimum of the occurrences of `L` in `G` and in `S`,
both uppercased. -/
theorem evaluateGuess_credited_eq_min (G S : List Char) (hS : S ≠ [])
    (_hlen : G.length = S.length) (L : Char) :
    creditedCells (evaluateGuess G S) L
      = min ((toUpperCase G).count L) ((toUpperCase S).count L) :=
  evaluateGuess_credited G S hS L

/-- C18, at the secret APPLE, the guess PAPER and the letter P (two in each word). -/
theorem evaluateGuess_credited_eq_min_witness :
    "APPLE".toList ≠ [] ∧ "PAPER".toList.length = "APPLE".toList.length ∧
    creditedCells (evaluateGuess "PAPER".toList "APPLE".toList) 'P'
      = min ((toUpperCase "PAPER".toList).count 'P') ((toUpperCase "APPLE".toList).count 'P') :=
  ⟨by decide, by decide,
    evaluateGuess_credited_eq_min "PAPER".toList "APPLE".toList (by decide) (by decide) 'P'⟩

/-! ## The knowledge map over any cells and over sequences of verdicts -/

theorem foldCell_get_any (K : List (Char × State)) (cell : Cell) (L : Char) :
    mapGet (foldCell K cell) L
      = if cell.letter = L ∧
            ((mapGet K L = none ∨ mapGet K L = some State.null)
              ∨ (mapGet K L = some State.absent ∧ cell.state ≠ State.absent)
              ∨ (mapGet K L = some State.present ∧ cell.state = State.correct)) then
          some cell.state
        else mapGet K L := by
  unfold foldCell
  by_cases hL : cell.letter = L
  · subst hL
    simp only [true_and]
    split_ifs
    · rw [mapGet_mapSet, if_pos rfl]
    · rfl
  · simp only [hL, false_and, if_false]
    split_ifs
    · rw [mapGet_mapSet, if_neg hL]
    · rfl

theorem foldCell_keeps_correct (K : List (Char × State)) (cell : Cell) (L : Char)
    (h : mapGet K L = some State.correct) :
    mapGet (foldCell K cell) L = some State.correct := by
  rw [foldCell_get_any, h]
  simp

theorem foldCell_keeps_present (K : List (Char × State)) (cell : Cell) (L : Char)
    (h : mapGet K L = some State.present ∨ mapGet K L = some State.correct) :
    mapGet (foldCell K cell) L = some State.present
      ∨ mapGet (foldCell K cell) L = some State.correct := by
  rcases h with h | h
  · rw [foldCell_get_any, h]
    by_cases hc : cell.letter = L ∧ cell.state = State.correct
    · simp [hc.1, hc.2]
    · by_cases hl : cell.letter = L
      · have hs : ¬ cell.state = State.correct := fun hs => hc ⟨hl, hs⟩
        simp [hs]
      · simp [hl]
  · exact Or.inr (foldCell_keeps_correct K cell L h)

theorem updateLetterStates_keeps_correct (V : List Cell) :
    ∀ (K : List (Char × State)) (L : Char), mapGet K L = some State.correct →
      mapGet (updateLetterStates K V) L = some State.correct := by
  induction V with
  | nil => intro K L h; simpa [updateLetterStates] using h
  | cons cell V ih =>
    intro K L h
    rw [updateLetterStates_cons]
    exact ih _ L (foldCell_keeps_correct K cell L h)

theorem updateLetterStates_keeps_present (V : List Cell) :
    ∀ (K : List (Char × State)) (L : Char),
      (mapGet K L = some State.present ∨ mapGet K L = some State.correct) →
      (mapGet (updateLetterStates K V) L = some State.present
        ∨ mapGet (updateLetterStates K V) L = some State.correct) := by
  induction V with
  | nil => intro K L h; simpa [updateLetterStates] using h
  | cons cell V ih =>
    intro K L h
    rw [updateLetterStates_cons]
    exact ih _ L (foldCell_keeps_present K cell L h)

theorem foldl_updateLetterStates_keeps_correct (verdicts : List (List Cell)) :
    ∀ (K : List (Char × State)) (L : Char), mapGet K L = some State.correct →
      mapGet (verdicts.foldl updateLetterStates K) L = some State.correct := by
  induction verdicts with
  | nil => intro K L h; simpa using h
  | cons V verdicts ih =>
    intro K L h
    rw [List.foldl_cons]
    exact ih _ L (updateLetterStates_keeps_correct V K L h)

theorem foldl_updateLetterStates_keeps_present (verdicts : List (List Cell)) :
    ∀ (K : List (Char × State)) (L : Char),
      (mapGet K L = some State.present ∨ mapGet K L = some State.correct) →
      (mapGet (verdicts.foldl updateLetterStates K) L = some State.present
        ∨ mapGet (verdicts.foldl updateLetterStates K) L = some State.correct) := by
  induction verdicts with
  | nil => intro K L h; simpa using h
  | cons V verdicts ih =>
    intro K L h
    rw [List.foldl_cons]
    exact ih _ L (updateLetterStates_keeps_present V K L h)

/-- C11. For every knowledge map `K`, every letter `L` and every finite sequence of
verdicts whose cells have any state: when `L` is `correct` in `K` it is still `correct`
after folding the whole sequence, and when `L` is `present` in `K` it is `present` or
`correct` afterwards, never `absent`. -/
theorem updateLetterStates_never_regresses (K : List (Char × State)) (L : Char)
    (verdicts : List (List Cell)) :
    (mapGet K L = some State.correct →
      mapGet (verdicts.foldl updateLetterStates K) L = some State.correct) ∧
    (mapGet K L = some State.present →
      (mapGet (verdicts.foldl updateLetterStates K) L = some State.present
        ∨ mapGet (verdicts.foldl updateLetterStates K) L = some State.correct)
      ∧ mapGet (verdicts.foldl updateLetterStates K) L ≠ some State.absent) := by
  refine ⟨foldl_updateLetterStates_keeps_correct verdicts K L, fun h => ?_⟩
  have hp := foldl_updateLetterStates_keeps_present verdicts K L (Or.inl h)
  refine ⟨hp, fun habs => ?_⟩
  rcases hp with hp | hp <;> rw [hp] at habs <;> exact State.noConfusion (Option.some.inj habs)

/-- C11, on the map holding E as correct and R as present, folded with a row of `empty`
cells and then with the verdict of EERIE against TIGHT, where E and R are absent. -/
theorem updateLetterStates_never_regresses_witness :
    mapGet [('E', State.correct), ('R', State.present)] 'E' = some State.correct ∧
    mapGet ([evaluateGuess "EERIE".toList [], evaluateGuess "EERIE".toList "TIGHT".toList].foldl
        updateLetterStates [('E', State.correct), ('R', State.present)]) 'E'
      = some State.correct ∧
    mapGet [('E', State.correct), ('R', State.present)] 'R' = some State.present ∧
    mapGet ([evaluateGuess "EERIE".toList [], evaluateGuess "EERIE".toList "TIGHT".toList].foldl
        updateLetterStates [('E', State.correct), ('R', State.present)]) 'R'
      ≠ some State.absent :=
  ⟨by decide,
    (updateLetterStates_never_regresses [('E', State.correct), ('R', State.present)] 'E'
      [evaluateGuess "EERIE".toList [], evaluateGuess "EERIE".toList "TIGHT".toList]).1
      (by decide),
    by decide,
    ((updateLetterStates_never_regresses [('E', State.correct), ('R', State.present)] 'R'
      [evaluateGuess "EERIE".toList [], evaluateGuess "EERIE".toList "TIGHT".toList]).2
      (by decide)).2⟩

theorem foldCell_empty_get (K : List (Char × State)) (cell : Cell) (L : Char)
    (hc : cell.state = State.empty) :
    mapGet (foldCell K cell) L
      = if cell.letter = L ∧
            (mapGet K L = none ∨ mapGet K L = some State.null
              ∨ mapGet K L = some State.absent) then
          some State.empty
        else mapGet K L := by
  rw [foldCell_get_any, hc]
  by_cases hL : cell.letter = L
  · rcases hcur : mapGet K L with _ | s
    · simp [hL]
    · cases s <;> simp [hL]
  · simp [hL]

theorem updateLetterStates_empty_row (V : List Cell) :
    ∀ (K : List (Char × State)) (L : Char), (∀ cell ∈ V, cell.state = State.empty) →
      mapGet (updateLetterStates K V) L
        = if (∃ cell ∈ V, cell.letter = L) ∧
              (mapGet K L = none ∨ mapGet K L = some State.null
                ∨ mapGet K L = some State.absent) then
            some State.empty
          else mapGet K L := by
  induction V with
  | nil => intro K L _; simp [updateLetterStates]
  | cons cell V ih =>
    intro K L hV
    have hc : cell.state = State.empty := hV cell (List.mem_cons_self _ _)
    have hV' : ∀ c ∈ V, c.state = State.empty := fun c h => hV c (List.mem_cons_of_mem _ h)
    rw [updateLetterStates_cons, ih (foldCell K cell) L hV']
    have hget := foldCell_empty_get K cell L hc
    by_cases hL : cell.letter = L
    · by_cases hcond : mapGet K L = none ∨ mapGet K L = some State.null
          ∨ mapGet K L = some State.absent
      · have hnew : mapGet (foldCell K cell) L = some State.empty := by
          rw [hget, if_pos ⟨hL, hcond⟩]
        have hex : ∃ c ∈ cell :: V, c.letter = L := ⟨cell, List.mem_cons_self _ _, hL⟩
        have hboth : (∃ c ∈ cell :: V, c.letter = L) ∧
            (mapGet K L = none ∨ mapGet K L = some State.null
              ∨ mapGet K L = some State.absent) := ⟨hex, hcond⟩
        rw [hnew, if_pos hboth]
        simp
      · have hnew : mapGet (foldCell K cell) L = mapGet K L := by
          rw [hget, if_neg (fun h => hcond h.2)]
        have h1 : ¬ ((∃ c ∈ V, c.letter = L) ∧
            (mapGet K L = none ∨ mapGet K L = some State.null
              ∨ mapGet K L = some State.absent)) := fun h => hcond h.2
        have h2 : ¬ ((∃ c ∈ cell :: V, c.letter = L) ∧
            (mapGet K L = none ∨ mapGet K L = some State.null
              ∨ mapGet K L = some State.absent)) := fun h => hcond h.2
        rw [hnew, if_neg h1, if_neg h2]
    · have hnew : mapGet (foldCell K cell) L = mapGet K L := by
        rw [hget, if_neg (fun h => hL h.1)]
      rw [hnew]
      have hiff : (∃ c ∈ cell :: V, c.letter = L) ↔ (∃ c ∈ V, c.letter = L) := by
        constructor
        · rintro ⟨c, hc', hl⟩
          rcases List.mem_cons.1 hc' with h | h
          · rw [h] at hl; exact absurd hl hL
          · exact ⟨c, h, hl⟩
        · rintro ⟨c, hc', hl⟩
          exact ⟨c, List.mem_cons_of_mem _ hc', hl⟩
      simp only [hiff]

/-- C12, evaluated on the code. The placeholder row that `evaluateGuess` returns for
HELLO with an empty secret has only `empty` cells, yet folding it into the empty map
stores H, E, L and O with the state `empty`, so the result is not the map it started
from; folded into a map that holds H as `absent`, it overwrites that state by `empty`;
and once `empty` is stored, folding the verdict of HELLO against HELLO, where H is
`correct`, leaves H at `empty`. -/
theorem updateLetterStates_stores_empty :
    (∀ cell ∈ evaluateGuess "HELLO".toList [], cell.state = State.empty) ∧
    updateLetterStates [] (evaluateGuess "HELLO".toList [])
      = [('H', State.empty), ('E', State.empty), ('L', State.empty), ('O', State.empty)] ∧
    updateLetterStates [] (evaluateGuess "HELLO".toList []) ≠ [] ∧
    mapGet (updateLetterStates [('H', State.absent)] (evaluateGuess "HELLO".toList [])) 'H'
      = some State.empty ∧
    (evaluateGuess "HELLO".toList "HELLO".toList)[0]? = some ⟨'H', State.correct⟩ ∧
    mapGet (updateLetterStates (updateLetterStates [] (evaluateGuess "HELLO".toList []))
        (evaluateGuess "HELLO".toList "HELLO".toList)) 'H'
      = some State.empty := by
  decide

theorem foldl_updateLetterStates_flatten (verdicts : List (List Cell))
    (K : List (Char × State)) :
    verdicts.foldl updateLetterStates K = updateLetterStates K verdicts.flatten := by
  unfold updateLetterStates
  rw [List.foldl_flatten]

theorem strongest_right_comm (best : Option State) (x y : State) :
    strongest (strongest best x) y = strongest (strongest best y) x := by
  rcases best with _ | b
  · cases x <;> cases y <;> rfl
  · cases b <;> cases x <;> cases y <;> rfl

theorem foldl_strongest_perm (cells cells' : List Cell) (h : cells'.Perm cells)
    (start : Option State) :
    cells'.foldl (fun best cell => strongest best cell.state) start
      = cells.foldl (fun best cell => strongest best cell.state) start :=
  List.Perm.foldl_eq' h (fun x _ y _ z => strongest_right_comm z x.state y.state) start

theorem foldl_updateLetterStates_get (verdicts : List (List Cell))
    (hV : ∀ V ∈ verdicts, ∀ cell ∈ V,
      cell.state = State.absent ∨ cell.state = State.present ∨ cell.state = State.correct)
    (L : Char) :
    mapGet (verdicts.foldl updateLetterStates []) L
      = (verdicts.flatten.filter (fun cell => decide (cell.letter = L))).foldl
          (fun best cell => strongest best cell.state) none := by
  rw [foldl_updateLetterStates_flatten]
  have hcells : ∀ cell ∈ verdicts.flatten,
      cell.state = State.absent ∨ cell.state = State.present ∨ cell.state = State.correct := by
    intro cell hc
    obtain ⟨V, hVm, hcV⟩ := List.mem_flatten.1 hc
    exact hV V hVm cell hcV
  have h := updateLetterStates_get verdicts.flatten [] L (by simp) hcells
  simpa [mapGet] using h

/-- C13. For a finite sequence of verdicts whose cells are `absent`, `present` or
`correct` (no `empty` cell), folding them one by one from the empty map gives every
letter `L` the maximum, in the order `unknown < absent < present < correct`, of the
states of all the cells that carry `L` in all the verdicts; and folding the same verdicts
in any other order gives every letter the same state. -/
theorem updateLetterStates_fold_is_maximum (verdicts : List (List Cell))
    (hV : ∀ V ∈ verdicts, ∀ cell ∈ V,
      cell.state = State.absent ∨ cell.state = State.present ∨ cell.state = State.correct) :
    (∀ L,
      mapGet (verdicts.foldl updateLetterStates []) L
        = (verdicts.flatten.filter (fun cell => decide (cell.letter = L))).foldl
            (fun best cell => strongest best cell.state) none ∧
      knowledgeRank (mapGet (verdicts.foldl updateLetterStates []) L)
        = ((verdicts.flatten.filter (fun cell => decide (cell.letter = L))).map
            (fun cell => knowledgeRank (some cell.state))).foldl max 0) ∧
    (∀ reordered : List (List Cell), reordered.Perm verdicts → ∀ L,
      mapGet (reordered.foldl updateLetterStates []) L
        = mapGet (verdicts.foldl updateLetterStates []) L) := by
  constructor
  · intro L
    have hget := foldl_updateLetterStates_get verdicts hV L
    refine ⟨hget, ?_⟩
    rw [hget, knowledgeRank_foldl_strongest]
    rfl
  · intro reordered hperm L
    have hV' : ∀ V ∈ reordered, ∀ cell ∈ V,
        cell.state = State.absent ∨ cell.state = State.present ∨ cell.state = State.correct :=
      fun V hVm => hV V (hperm.mem_iff.1 hVm)
    rw [foldl_updateLetterStates_get verdicts hV L, foldl_updateLetterStates_get reordered hV' L]
    exact foldl_strongest_perm _ _ ((hperm.flatten).filter _) none

/-- C13, on the verdicts of EERIE and of ELBOW against the secret CRANE. -/
theorem updateLetterStates_fold_is_maximum_witness :
    (∀ V ∈ [evaluateGuess "EERIE".toList "CRANE".toList,
        evaluateGuess "ELBOW".toList "CRANE".toList], ∀ cell ∈ V,
      cell.state = State.absent ∨ cell.state = State.present ∨ cell.state = State.correct) ∧
    ((∀ L,
      mapGet ([evaluateGuess "EERIE".toList "CRANE".toList,
          evaluateGuess "ELBOW".toList "CRANE".toList].foldl updateLetterStates []) L
        = (([evaluateGuess "EERIE".toList "CRANE".toList,
              evaluateGuess "ELBOW".toList "CRANE".toList].flatten.filter
            (fun cell => decide (cell.letter = L))).foldl
            (fun best cell => strongest best cell.state) none) ∧
      knowledgeRank (mapGet ([evaluateGuess "EERIE".toList "CRANE".toList,
          evaluateGuess "ELBOW".toList "CRANE".toList].foldl updateLetterStates []) L)
        = (([evaluateGuess "EERIE".toList "CRANE".toList,
              evaluateGuess "ELBOW".toList "CRANE".toList].flatten.filter
            (fun cell => decide (cell.letter = L))).map
            (fun cell => knowledgeRank (some cell.state))).foldl max 0) ∧
    (∀ reordered : List (List Cell),
      reordered.Perm [evaluateGuess "EERIE".toList "CRANE".toList,
        evaluateGuess "ELBOW".toList "CRANE".toList] → ∀ L,
      mapGet (reordered.foldl updateLetterStates []) L
        = mapGet ([evaluateGuess "EERIE".toList "CRANE".toList,
            evaluateGuess "ELBOW".toList "CRANE".toList].foldl updateLetterStates []) L)) :=
  ⟨by decide,
    updateLetterStates_fold_is_maximum [evaluateGuess "EERIE".toList "CRANE".toList,
      evaluateGuess "ELBOW".toList "CRANE".toList] (by decide)⟩

/-! ## `isValidWord` -/

theorem inLetterClass_eq_isAlpha (c : Char) : inLetterClass c = c.isAlpha := by
  have ha : ('a' ≤ c) ↔ (c.val ≥ 97) := Iff.rfl
  have hz : (c ≤ 'z') ↔ (c.val ≤ 122) := Iff.rfl
  have hA : ('A' ≤ c) ↔ (c.val ≥ 65) := Iff.rfl
  have hZ : (c ≤ 'Z') ↔ (c.val ≤ 90) := Iff.rfl
  unfold inLetterClass Char.isAlpha Char.isUpper Char.isLower
  simp only [ha, hz, hA, hZ]
  rw [Bool.or_comm]

theorem inLetterClass_small (c : Char) (h : inLetterClass c = true) : c.toNat < 65536 := by
  simp only [inLetterClass, Bool.or_eq_true, Bool.and_eq_true, decide_eq_true_eq] at h
  rcases h with ⟨_, h⟩ | ⟨_, h⟩
  · have h2 : c.val.toNat ≤ ('z'.val).toNat := h
    have h3 : ('z'.val).toNat = 122 := rfl
    have h4 : c.toNat = c.val.toNat := rfl
    omega
  · have h2 : c.val.toNat ≤ ('Z'.val).toNat := h
    have h3 : ('Z'.val).toNat = 90 := rfl
    have h4 : c.toNat = c.val.toNat := rfl
    omega

theorem jsLength_of_letters (word : List Char) (h : word.all inLetterClass = true) :
    jsLength word = word.length := by
  induction word with
  | nil => rfl
  | cons c cs ih =>
    simp only [List.all_cons, Bool.and_eq_true] at h
    have hc := inLetterClass_small c h.1
    have := ih h.2
    unfold jsLength at this ⊢
    simp only [List.map_cons, List.sum_cons, hc, if_true, List.length_cons, this]
    omega

theorem testWordPattern_iff (word : List Char) :
    testWordPattern word = true ↔ word.length = 5 ∧ word.all inLetterClass = true := by
  rcases word with _ | ⟨a, _ | ⟨b, _ | ⟨c, _ | ⟨d, _ | ⟨e, _ | ⟨f, rest⟩⟩⟩⟩⟩⟩ <;>
    simp [testWordPattern, and_assoc]

theorem isValidWord_string_iff (word : List Char) :
    isValidWord (Value.string word) = true
      ↔ word.length = 5 ∧ word.all inLetterClass = true := by
  unfold isValidWord
  by_cases hnil : word = []
  · subst hnil
    simp
  · simp only [hnil, if_false, Bool.and_eq_true, decide_eq_true_eq, testLetters]
    constructor
    · rintro ⟨hlen, _, hall⟩
      rw [jsLength_of_letters word hall] at hlen
      exact ⟨hlen, hall⟩
    · rintro ⟨hlen, hall⟩
      refine ⟨by rw [jsLength_of_letters word hall]; exact hlen, ?_, hall⟩
      cases word with
      | nil => exact absurd rfl hnil
      | cons c cs => rfl

/-- C16. `isValidWord` returns true exactly on the strings of five characters that are
all ASCII letters a-z or A-Z; it returns false on the empty string, on every value that
is not a string, and on every string that has a character outside those letters, such as
a digit, a space or an accented letter; on strings it agrees with the pattern
`VALIDATION_REGEX.WORD`. -/
theorem isValidWord_iff_five_letters :
    (∀ v, isValidWord v = true ↔
      ∃ word, v = Value.string word ∧ word.length = 5 ∧ ∀ c ∈ word, c.isAlpha = true) ∧
    isValidWord (Value.string []) = false ∧
    (∀ v, (∀ word, v ≠ Value.string word) → isValidWord v = false) ∧
    (∀ word, (∃ c ∈ word, c.isAlpha = false) → isValidWord (Value.string word) = false) ∧
    ('7'.isAlpha = false ∧ ' '.isAlpha = false ∧ 'é'.isAlpha = false) ∧
    (∀ word, isValidWord (Value.string word) = testWordPattern word) := by
  have hall : ∀ word : List Char,
      word.all inLetterClass = true ↔ ∀ c ∈ word, c.isAlpha = true := by
    intro word
    rw [List.all_eq_true]
    constructor
    · intro h c hc
      rw [← inLetterClass_eq_isAlpha]; exact h c hc
    · intro h c hc
      rw [inLetterClass_eq_isAlpha]; exact h c hc
  refine ⟨?_, by decide, ?_, ?_, by decide, ?_⟩
  · intro v
    constructor
    · intro h
      cases v with
      | string word =>
        obtain ⟨hlen, hl⟩ := (isValidWord_string_iff word).1 h
        exact ⟨word, rfl, hlen, (hall word).1 hl⟩
      | undefined => exact absurd h (by decide)
      | null => exact absurd h (by decide)
      | boolean b => exact absurd h (by simp [isValidWord])
      | number n => exact absurd h (by simp [isValidWord])
      | object => exact absurd h (by decide)
    · rintro ⟨word, rfl, hlen, hl⟩
      exact (isValidWord_string_iff word).2 ⟨hlen, (hall word).2 hl⟩
  · intro v hv
    cases v with
    | string word => exact absurd rfl (hv word)
    | undefined => rfl
    | null => rfl
    | boolean b => rfl
    | number n => rfl
    | object => rfl
  · rintro word ⟨c, hc, hcl⟩
    by_contra hne
    have htrue : isValidWord (Value.string word) = true := by
      cases h : isValidWord (Value.string word)
      · exact absurd h hne
      · rfl
    have := (hall word).1 ((isValidWord_string_iff word).1 htrue).2 c hc
    rw [hcl] at this
    exact Bool.noConfusion this
  · intro word
    cases h : testWordPattern word
    · cases h2 : isValidWord (Value.string word)
      · rfl
      · have := (testWordPattern_iff word).2 ((isValidWord_string_iff word).1 h2)
        rw [h] at this
        exact Bool.noConfusion this
    · exact (isValidWord_string_iff word).2 ((testWordPattern_iff word).1 h)

/-! ## `getFeedbackMessage` -/

theorem getFeedbackMessage_won_eq (attempts : Int) (language : String) (roll : Nat) :
    getFeedbackMessage true attempts language roll
      = poolGet (match messagesGet language with
          | Entry.undefined => messagesFr
          | entry => entry) true
          (if attempts = 1 then 4 else if attempts ≤ 3 then 0 else if attempts ≤ 4 then 1
            else 2) := by
  unfold getFeedbackMessage
  simp only [if_true]
  split_ifs <;> rfl

theorem messagesGet_en : messagesGet "en" = messagesEn := by decide

theorem messagesGet_other (language : String) (hen : language ≠ "en")
    (h : language ∉ inheritedNames) :
    (match messagesGet language with
      | Entry.undefined => messagesFr
      | entry => entry) = messagesFr := by
  unfold messagesGet
  by_cases hfr : language = "fr"
  · simp [hfr, messagesFr]
  · simp [hfr, hen, h]

/-- Outside the languages a caller passes: `constructor` is the name of a property that
every object inherits, so `messages[language]` is then the function `Object`, which is
truthy and has no pool `win`, and reading `pool[4]` throws a `TypeError`. -/
theorem getFeedbackMessage_inherited_name_throws :
    "constructor" ≠ "fr" ∧ "constructor" ≠ "en" ∧
    getFeedbackMessage true 1 "constructor" 0 = Outcome.typeError ∧
    getFeedbackMessage true 1 "constructor" 0 ≠ Outcome.returns "Parfait ! 💯" ∧
    getFeedbackMessage true 1 "fr" 0 = Outcome.returns "Parfait ! 💯" := by
  decide

/-- C17. For a won game the message is a function of `attempts` and `language` only:
the Perfect / Parfait message (index 4) when `attempts = 1`, the Awesome / Génial message
(index 0) when `attempts` is 2 or 3, the Excellent message (index 1) when `attempts = 4`,
the Well done / Bravo message (index 2) when `attempts ≥ 5`; the English pool for `en`,
the French pool for `fr` and for any other language. A language is any string except
the twelve property names that every object inherits (`inheritedNames`), which are not
languages and which no caller passes: `language` is `fr` or `en` in `WordleGame.jsx`. -/
theorem getFeedbackMessage_won (attempts : Int) (language : String) (roll : Nat)
    (h : language ∉ inheritedNames) :
    (∀ other : Nat, getFeedbackMessage true attempts language roll
      = getFeedbackMessage true attempts language other) ∧
    (language = "en" →
      (attempts = 1 →
        getFeedbackMessage true attempts language roll = Outcome.returns "Perfect! 💯") ∧
      (attempts = 2 ∨ attempts = 3 →
        getFeedbackMessage true attempts language roll = Outcome.returns "Awesome! 🎉") ∧
      (attempts = 4 →
        getFeedbackMessage true attempts language roll = Outcome.returns "Excellent! 👏") ∧
      (5 ≤ attempts →
        getFeedbackMessage true attempts language roll = Outcome.returns "Well done! 🎊")) ∧
    (language ≠ "en" →
      (attempts = 1 →
        getFeedbackMessage true attempts language roll = Outcome.returns "Parfait ! 💯") ∧
      (attempts = 2 ∨ attempts = 3 →
        getFeedbackMessage true attempts language roll = Outcome.returns "Génial ! 🎉") ∧
      (attempts = 4 →
        getFeedbackMessage true attempts language roll = Outcome.returns "Excellent ! 👏") ∧
      (5 ≤ attempts →
        getFeedbackMessage true attempts language roll = Outcome.returns "Bravo ! 🎊")) := by
  refine ⟨fun other => ?_, fun hen => ?_, fun hen => ?_⟩
  · rw [getFeedbackMessage_won_eq, getFeedbackMessage_won_eq]
  · subst hen
    rw [getFeedbackMessage_won_eq, messagesGet_en]
    refine ⟨fun h1 => ?_, fun h1 => ?_, fun h1 => ?_, fun h1 => ?_⟩
    · subst h1; rfl
    · rcases h1 with h1 | h1 <;> subst h1 <;> rfl
    · subst h1; rfl
    · have e : (if attempts = 1 then 4 else if attempts ≤ 3 then 0
          else if attempts ≤ 4 then 1 else 2) = 2 := by
        rw [if_neg (by omega), if_neg (by omega), if_neg (by omega)]
      rw [e]; rfl
  · rw [getFeedbackMessage_won_eq, messagesGet_other language hen h]
    refine ⟨fun h1 => ?_, fun h1 => ?_, fun h1 => ?_, fun h1 => ?_⟩
    · subst h1; rfl
    · rcases h1 with h1 | h1 <;> subst h1 <;> rfl
    · subst h1; rfl
    · have e : (if attempts = 1 then 4 else if attempts ≤ 3 then 0
          else if attempts ≤ 4 then 1 else 2) = 2 := by
        rw [if_neg (by omega), if_neg (by omega), if_neg (by omega)]
      rw [e]; rfl

/-- C17, at one attempt in the language `fr`, and at five attempts in the language `de`,
which gets the French pool. -/
theorem getFeedbackMessage_won_witness :
    "fr" ∉ inheritedNames ∧ "fr" ≠ "en" ∧ (1 : Int) = 1 ∧
    getFeedbackMessage true 1 "fr" 0 = Outcome.returns "Parfait ! 💯" ∧
    "de" ∉ inheritedNames ∧ "de" ≠ "en" ∧ (5 : Int) ≤ 5 ∧
    getFeedbackMessage true 5 "de" 0 = Outcome.returns "Bravo ! 🎊" :=
  ⟨by decide, by decide, rfl,
    ((getFeedbackMessage_won 1 "fr" 0 (by decide)).2.2 (by decide)).1 rfl,
    by decide, by decide, by decide,
    ((getFeedbackMessage_won 5 "de" 0 (by decide)).2.2 (by decide)).2.2.2 (by decide)⟩

/-! ## Case maps on characters -/

theorem toUpper_of_not_lower (c : Char) (h : ¬ (97 ≤ c.toNat ∧ c.toNat ≤ 122)) :
    Char.toUpper c = c := by
  unfold Char.toUpper
  simp only [ge_iff_le]
  rw [if_neg h]

theorem toLower_of_not_upper (c : Char) (h : ¬ (65 ≤ c.toNat ∧ c.toNat ≤ 90)) :
    Char.toLower c = c := by
  unfold Char.toLower
  simp only [ge_iff_le]
  rw [if_neg h]

theorem toLower_toUpper (c : Char) : Char.toLower (Char.toUpper c) = Char.toLower c := by
  by_cases h : 97 ≤ c.toNat ∧ c.toNat ≤ 122
  · have key : ∀ n, 97 ≤ n → n ≤ 122 →
        Char.toLower (Char.toUpper (Char.ofNat n)) = Char.toLower (Char.ofNat n) := by
      intro n h1 h2
      interval_cases n <;> rfl
    have := key c.toNat h.1 h.2
    rwa [Char.ofNat_toNat] at this
  · rw [toUpper_of_not_lower c h]

theorem toUpper_not_lower (c : Char) :
    ¬ (97 ≤ (Char.toUpper c).toNat ∧ (Char.toUpper c).toNat ≤ 122) := by
  by_cases h : 97 ≤ c.toNat ∧ c.toNat ≤ 122
  · have key : ∀ n, 97 ≤ n → n ≤ 122 →
        ¬ (97 ≤ (Char.toUpper (Char.ofNat n)).toNat
            ∧ (Char.toUpper (Char.ofNat n)).toNat ≤ 122) := by
      intro n h1 h2
      interval_cases n <;> decide
    have := key c.toNat h.1 h.2
    rwa [Char.ofNat_toNat] at this
  · rw [toUpper_of_not_lower c h]; exact h

theorem toLower_toNat_of_upper (c : Char) (h1 : 65 ≤ c.toNat) (h2 : c.toNat ≤ 90) :
    (Char.toLower c).toNat = c.toNat + 32 := by
  have key : ∀ n, 65 ≤ n → n ≤ 90 →
      (Char.toLower (Char.ofNat n)).toNat = (Char.ofNat n).toNat + 32 := by
    intro n h1 h2
    interval_cases n <;> rfl
  have := key c.toNat h1 h2
  rwa [Char.ofNat_toNat] at this

theorem char_eq_of_toNat_eq (a b : Char) (h : a.toNat = b.toNat) : a = b := by
  have := congrArg Char.ofNat h
  simpa using this

/-- On characters that are not lowercase letters, such as uppercased ones, `toLower` is
injective. -/
theorem toLower_injective_of_not_lower (a b : Char)
    (ha : ¬ (97 ≤ a.toNat ∧ a.toNat ≤ 122)) (hb : ¬ (97 ≤ b.toNat ∧ b.toNat ≤ 122))
    (h : Char.toLower a = Char.toLower b) : a = b := by
  by_cases hua : 65 ≤ a.toNat ∧ a.toNat ≤ 90
  · have h1 := toLower_toNat_of_upper a hua.1 hua.2
    by_cases hub : 65 ≤ b.toNat ∧ b.toNat ≤ 90
    · have h2 := toLower_toNat_of_upper b hub.1 hub.2
      rw [h] at h1
      exact char_eq_of_toNat_eq a b (by omega)
    · rw [h, toLower_of_not_upper b hub] at h1
      omega
  · by_cases hub : 65 ≤ b.toNat ∧ b.toNat ≤ 90
    · have h2 := toLower_toNat_of_upper b hub.1 hub.2
      rw [← h, toLower_of_not_upper a hua] at h2
      omega
    · rw [toLower_of_not_upper a hua, toLower_of_not_upper b hub] at h
      exact h

/-! ## Cells of a real verdict -/

theorem evaluateGuess_cell (G S : List Char) (hS : S ≠ []) (i : Nat) (cell : Cell)
    (h : (evaluateGuess G S)[i]? = some cell) :
    (toUpperCase G)[i]? = some cell.letter ∧
    (cell.state = State.absent ∨ cell.state = State.present ∨ cell.state = State.correct) ∧
    (cell.state = State.correct → (toUpperCase S)[i]? = some cell.letter) ∧
    (cell.state = State.present →
      (toUpperCase S)[i]? ≠ some cell.letter ∧ cell.letter ∈ toUpperCase S) := by
  have hl := congrArg (fun l => l[i]?) (evaluateGuess_letters G S hS)
  simp only [List.getElem?_map, h, Option.map_some'] at hl
  have hG : (toUpperCase G)[i]? = some cell.letter := hl.symm
  have hi : i < (toUpperCase G).length := by
    by_contra hcon
    rw [List.getElem?_eq_none (by omega)] at hG
    exact Option.noConfusion hG
  have hcor := scanRow_correct_iff (toUpperCase G) (toUpperCase S)
    (spendExact (countLetters (toUpperCase S)) (toUpperCase S) (toUpperCase G)) i hi
  rw [← evaluateGuess_eq_scanRow G S hS, h, hG] at hcor
  simp only [Option.map_some', Option.some.injEq] at hcor
  by_cases hm : (toUpperCase S)[i]? = some cell.letter
  · have hc : cell.state = State.correct := hcor.2 hm.symm
    refine ⟨hG, Or.inr (Or.inr hc), fun _ => hm, fun hp => ?_⟩
    rw [hc] at hp
    exact State.noConfusion hp
  · have key := scanRow_miss_state (toUpperCase G) (toUpperCase S)
      (spendExact (countLetters (toUpperCase S)) (toUpperCase S) (toUpperCase G)) i
      cell.letter hG hm
    rw [← evaluateGuess_eq_scanRow G S hS, h, value_after_exact] at key
    simp only [Option.map_some', Option.some.injEq] at key
    by_cases hc : (earlierMisses (toUpperCase S) (toUpperCase G) i cell.letter : Int)
        < ((toUpperCase S).count cell.letter : Int)
          - (exactMatches (toUpperCase S) (toUpperCase G) cell.letter : Int)
    · rw [if_pos hc] at key
      have hpos : 0 < (toUpperCase S).count cell.letter := by omega
      refine ⟨hG, Or.inr (Or.inl key), fun hcs => ?_, fun _ => ⟨hm, List.count_pos_iff.1 hpos⟩⟩
      rw [key] at hcs
      exact State.noConfusion hcs
    · rw [if_neg hc] at key
      refine ⟨hG, Or.inl key, fun hcs => ?_, fun hp => ?_⟩
      · rw [key] at hcs
        exact State.noConfusion hcs
      · rw [key] at hp
        exact State.noConfusion hp

theorem mem_historyOf (S : List Char) (guesses : List (List Char)) (row : List Cell)
    (h : row ∈ historyOf S guesses) : ∃ G ∈ guesses, row = evaluateGuess G S := by
  unfold historyOf at h
  obtain ⟨G, hG, hrow⟩ := List.mem_map.1 h
  exact ⟨G, hG, hrow.symm⟩

/-! ## Claims on real histories -/

/-- C19. For a non-empty secret `S` and guesses of the same length, all made of the
letters a-z / A-Z, on the history of the rows `evaluateGuess G S`: every entry `green[i]`
is the lowercased `i`-th letter of `S`, and every letter listed in `yellow[i]` occurs in
`S` lowercased and differs from the lowercased `i`-th letter of `S`. -/
theorem buildFeedback_constraints_hold (S : List Char) (guesses : List (List Char))
    (hS : S ≠ []) (_hlen : ∀ G ∈ guesses, G.length = S.length)
    (_hSa : isAlphabetic S = true) (_hGa : ∀ G ∈ guesses, isAlphabetic G = true) (i : Nat) :
    (∀ letter, objGet (buildFeedback (historyOf S guesses)).green i = some letter →
      (S.map toLowerCase)[i]? = some letter) ∧
    (∀ entry, objGet (buildFeedback (historyOf S guesses)).yellow i = some entry →
      ∀ letter ∈ entry,
        letter ∈ S.map toLowerCase ∧ (S.map toLowerCase)[i]? ≠ some letter) := by
  constructor
  · intro letter hg
    rw [buildFeedback_green] at hg
    have hmem : letter ∈ lettersAt State.correct (historyOf S guesses) i :=
      List.mem_of_mem_getLast? hg
    obtain ⟨row, hrow, cell, hcell, hstate, hlow⟩ := (mem_lettersAt _ _ _ _).1 hmem
    obtain ⟨G, _, rfl⟩ := mem_historyOf S guesses row hrow
    have hts := (evaluateGuess_cell G S hS i cell hcell).2.2.1 hstate
    unfold toUpperCase at hts
    rw [List.getElem?_map] at hts
    rw [List.getElem?_map]
    cases hs : S[i]? with
    | none => rw [hs] at hts; exact Option.noConfusion hts
    | some s =>
      rw [hs] at hts
      simp only [Option.map_some', Option.some.injEq] at hts ⊢
      rw [← hlow, ← hts]
      unfold toLowerCase
      rw [toLower_toUpper]
  · intro entry hy letter hl
    rw [buildFeedback_yellow] at hy
    by_cases hnil : lettersAt State.present (historyOf S guesses) i = []
    · rw [if_pos hnil] at hy
      exact Option.noConfusion hy
    · rw [if_neg hnil] at hy
      have hentry : entry = firstOccurrences (lettersAt State.present (historyOf S guesses) i) :=
        (Option.some.inj hy).symm
      rw [hentry, mem_firstOccurrences] at hl
      obtain ⟨row, hrow, cell, hcell, hstate, hlow⟩ := (mem_lettersAt _ _ _ _).1 hl
      obtain ⟨G, _, rfl⟩ := mem_historyOf S guesses row hrow
      obtain ⟨hG, _, _, hpres⟩ := evaluateGuess_cell G S hS i cell hcell
      obtain ⟨hne, hin⟩ := hpres hstate
      constructor
      · unfold toUpperCase at hin
        obtain ⟨s, hs, hsu⟩ := List.mem_map.1 hin
        refine List.mem_map.2 ⟨s, hs, ?_⟩
        rw [← hlow, ← hsu]
        unfold toLowerCase
        rw [toLower_toUpper]
      · intro hcon
        apply hne
        unfold toUpperCase at hG ⊢
        rw [List.getElem?_map] at hG hcon ⊢
        cases hs : S[i]? with
        | none => rw [hs] at hcon; exact Option.noConfusion hcon
        | some s =>
          rw [hs] at hcon
          simp only [Option.map_some', Option.some.injEq] at hcon ⊢
          cases hg : G[i]? with
          | none => rw [hg] at hG; exact Option.noConfusion hG
          | some g =>
            rw [hg] at hG
            simp only [Option.map_some', Option.some.injEq] at hG
            have hlower : Char.toLower (Char.toUpper s) = Char.toLower (Char.toUpper g) := by
              rw [toLower_toUpper s, hG]
              unfold toLowerCase at hcon hlow
              rw [hcon, hlow]
            rw [← hG]
            exact toLower_injective_of_not_lower _ _ (toUpper_not_lower s)
              (toUpper_not_lower g) hlower

/-- C19, on the secret ABIDE with the guesses ADIEU and BLOCK, at position 0, where
`green[0]` is `a` (A is correct in ADIEU) and `yellow[0]` is `[b]` (B is present in
BLOCK). -/
theorem buildFeedback_constraints_hold_witness :
    "ABIDE".toList ≠ [] ∧
    (∀ G ∈ ["ADIEU".toList, "BLOCK".toList], G.length = "ABIDE".toList.length) ∧
    isAlphabetic "ABIDE".toList = true ∧
    (∀ G ∈ ["ADIEU".toList, "BLOCK".toList], isAlphabetic G = true) ∧
    objGet (buildFeedback
      (historyOf "ABIDE".toList ["ADIEU".toList, "BLOCK".toList])).green 0 = some 'a' ∧
    objGet (buildFeedback
      (historyOf "ABIDE".toList ["ADIEU".toList, "BLOCK".toList])).yellow 0 = some ['b'] ∧
    ((∀ letter, objGet (buildFeedback
        (historyOf "ABIDE".toList ["ADIEU".toList, "BLOCK".toList])).green 0 = some letter →
      ("ABIDE".toList.map toLowerCase)[0]? = some letter) ∧
    (∀ entry, objGet (buildFeedback
        (historyOf "ABIDE".toList ["ADIEU".toList, "BLOCK".toList])).yellow 0 = some entry →
      ∀ letter ∈ entry,
        letter ∈ "ABIDE".toList.map toLowerCase
          ∧ ("ABIDE".toList.map toLowerCase)[0]? ≠ some letter)) :=
  ⟨by decide, by decide, by decide, by decide, by decide, by decide,
    buildFeedback_constraints_hold "ABIDE".toList ["ADIEU".toList, "BLOCK".toList]
      (by decide) (by decide) (by decide) (by decide) 0⟩

theorem strongest_keeps_credited (best : Option State) (observed : State)
    (h : best = some State.present ∨ best = some State.correct) :
    strongest best observed = some State.present
      ∨ strongest best observed = some State.correct := by
  rcases h with h | h <;> subst h <;> cases observed <;> decide

theorem strongest_of_credited (best : Option State) (observed : State)
    (hb : best = none ∨ best = some State.absent ∨ best = some State.present
      ∨ best = some State.correct)
    (h : observed = State.present ∨ observed = State.correct) :
    strongest best observed = some State.present
      ∨ strongest best observed = some State.correct := by
  rcases hb with hb | hb | hb | hb <;> subst hb <;> rcases h with h | h <;> subst h <;> decide

theorem strongest_known (best : Option State) (observed : State)
    (hb : best = none ∨ best = some State.absent ∨ best = some State.present
      ∨ best = some State.correct)
    (h : observed = State.absent ∨ observed = State.present ∨ observed = State.correct) :
    strongest best observed = none ∨ strongest best observed = some State.absent
      ∨ strongest best observed = some State.present
      ∨ strongest best observed = some State.correct := by
  rcases hb with hb | hb | hb | hb <;> subst hb <;> rcases h with h | h | h <;> subst h <;>
    decide

theorem foldl_strongest_credited (cells : List Cell) :
    ∀ (start : Option State),
      (start = none ∨ start = some State.absent ∨ start = some State.present
        ∨ start = some State.correct) →
      (∀ cell ∈ cells,
        cell.state = State.absent ∨ cell.state = State.present ∨ cell.state = State.correct) →
      ((start = some State.present ∨ start = some State.correct) ∨
        ∃ cell ∈ cells, cell.state = State.present ∨ cell.state = State.correct) →
      (cells.foldl (fun best cell => strongest best cell.state) start = some State.present
        ∨ cells.foldl (fun best cell => strongest best cell.state) start
            = some State.correct) := by
  induction cells with
  | nil =>
    intro start _ _ h
    rcases h with h | ⟨cell, hc, _⟩
    · simpa using h
    · simp at hc
  | cons cell cells ih =>
    intro start hstart hcells h
    have hcell := hcells cell (List.mem_cons_self _ _)
    have hrest : ∀ c ∈ cells,
        c.state = State.absent ∨ c.state = State.present ∨ c.state = State.correct :=
      fun c hc => hcells c (List.mem_cons_of_mem _ hc)
    rw [List.foldl_cons]
    apply ih (strongest start cell.state) (strongest_known start cell.state hstart hcell) hrest
    rcases h with h | ⟨c, hc, hcs⟩
    · exact Or.inl (strongest_keeps_credited start cell.state h)
    · rcases List.mem_cons.1 hc with hc | hc
      · subst hc
        exact Or.inl (strongest_of_credited start c.state hstart hcs)
      · exact Or.inr ⟨c, hc, hcs⟩

theorem historyOf_cells (S : List Char) (guesses : List (List Char)) (hS : S ≠ []) :
    ∀ V ∈ historyOf S guesses, ∀ cell ∈ V,
      cell.state = State.absent ∨ cell.state = State.present ∨ cell.state = State.correct := by
  intro V hV cell hc
  obtain ⟨G, _, rfl⟩ := mem_historyOf S guesses V hV
  obtain ⟨i, hi⟩ := List.getElem?_of_mem hc
  exact (evaluateGuess_cell G S hS i cell hi).2.1

theorem knowledge_of_guessed (S : List Char) (guesses : List (List Char)) (hS : S ≠ [])
    (L : Char) (G : List Char) (hG : G ∈ guesses) (hLG : L ∈ toUpperCase G)
    (hLS : L ∈ toUpperCase S) :
    mapGet ((historyOf S guesses).foldl updateLetterStates []) L = some State.present
      ∨ mapGet ((historyOf S guesses).foldl updateLetterStates []) L = some State.correct := by
  rw [foldl_updateLetterStates_get _ (historyOf_cells S guesses hS) L]
  have hcred := evaluateGuess_credited G S hS L
  have h1 := List.count_pos_iff.2 hLG
  have h2 := List.count_pos_iff.2 hLS
  have hpos : 0 < creditedCells (evaluateGuess G S) L := by omega
  unfold creditedCells at hpos
  obtain ⟨cell, hcell, hp⟩ := List.countP_pos_iff.1 hpos
  simp only [decide_eq_true_eq] at hp
  apply foldl_strongest_credited _ none (Or.inl rfl)
  · intro c hc
    have hc' := (List.mem_filter.1 hc).1
    obtain ⟨V, hV, hcV⟩ := List.mem_flatten.1 hc'
    exact historyOf_cells S guesses hS V hV c hcV
  · refine Or.inr ⟨cell, ?_, ?_⟩
    · refine List.mem_filter.2 ⟨List.mem_flatten.2 ⟨evaluateGuess G S, ?_, hcell⟩, ?_⟩
      · unfold historyOf
        exact List.mem_map.2 ⟨G, hG, rfl⟩
      · simp [hp.1]
    · rcases hp.2 with h | h
      · exact Or.inr h
      · exact Or.inl h

/-- C20. For a non-empty secret `S` and guesses of the same length, after folding the
rows `evaluateGuess G S` in order from the empty map: a letter whose state is `absent`
does not occur in `S` uppercased, and a guessed letter that occurs in `S` uppercased has
the state `present` or `correct`. -/
theorem updateLetterStates_sound (S : List Char) (guesses : List (List Char))
    (hS : S ≠ []) (_hlen : ∀ G ∈ guesses, G.length = S.length) (L : Char) :
    (mapGet ((historyOf S guesses).foldl updateLetterStates []) L = some State.absent →
      L ∉ toUpperCase S) ∧
    ((∃ G ∈ guesses, L ∈ toUpperCase G) → L ∈ toUpperCase S →
      (mapGet ((historyOf S guesses).foldl updateLetterStates []) L = some State.present
        ∨ mapGet ((historyOf S guesses).foldl updateLetterStates []) L
            = some State.correct)) := by
  constructor
  · intro habs hLS
    have hget := foldl_updateLetterStates_get _ (historyOf_cells S guesses hS) L
    have hne : (historyOf S guesses).flatten.filter (fun cell => decide (cell.letter = L))
        ≠ [] := by
      intro hnil
      rw [hget, hnil] at habs
      exact Option.noConfusion habs
    obtain ⟨cell, hcell⟩ := List.exists_mem_of_ne_nil _ hne
    obtain ⟨hflat, hletter⟩ := List.mem_filter.1 hcell
    simp only [decide_eq_true_eq] at hletter
    obtain ⟨V, hV, hcV⟩ := List.mem_flatten.1 hflat
    obtain ⟨G, hG, rfl⟩ := mem_historyOf S guesses V hV
    obtain ⟨i, hi⟩ := List.getElem?_of_mem hcV
    have hLG : L ∈ toUpperCase G := by
      rw [← hletter]
      exact List.getElem?_mem (evaluateGuess_cell G S hS i cell hi).1
    rcases knowledge_of_guessed S guesses hS L G hG hLG hLS with h | h <;>
      rw [h] at habs <;> exact State.noConfusion (Option.some.inj habs)
  · rintro ⟨G, hG, hLG⟩ hLS
    exact knowledge_of_guessed S guesses hS L G hG hLG hLS

/-- C20, on the secret CRANE with the guesses EERIE and ELBOW, for the letter E. -/
theorem updateLetterStates_sound_witness :
    "CRANE".toList ≠ [] ∧
    (∀ G ∈ ["EERIE".toList, "ELBOW".toList], G.length = "CRANE".toList.length) ∧
    ((mapGet ((historyOf "CRANE".toList ["EERIE".toList, "ELBOW".toList]).foldl
        updateLetterStates []) 'E' = some State.absent →
      'E' ∉ toUpperCase "CRANE".toList) ∧
    ((∃ G ∈ ["EERIE".toList, "ELBOW".toList], 'E' ∈ toUpperCase G) →
      'E' ∈ toUpperCase "CRANE".toList →
      (mapGet ((historyOf "CRANE".toList ["EERIE".toList, "ELBOW".toList]).foldl
          updateLetterStates []) 'E' = some State.present
        ∨ mapGet ((historyOf "CRANE".toList ["EERIE".toList, "ELBOW".toList]).foldl
            updateLetterStates []) 'E' = some State.correct))) :=
  ⟨by decide, by decide,
    updateLetterStates_sound "CRANE".toList ["EERIE".toList, "ELBOW".toList]
      (by decide) (by decide) 'E'⟩

/-! ## `buildFeedback`: the grey letters -/

theorem mem_setAdd (set : List Char) (x a : Char) : a ∈ setAdd set x ↔ a ∈ set ∨ a = x := by
  unfold setAdd
  by_cases h : x ∈ set
  · rw [if_pos h]
    constructor
    · exact Or.inl
    · rintro (h' | h')
      · exact h'
      · rw [h']; exact h
  · rw [if_neg h]
    simp

theorem visitCell_greenLetters (st : Compiler) (p : Nat × Cell) :
    (visitCell st p).greenLetters
      = if p.2.state = State.correct then setAdd st.greenLetters (toLowerCase p.2.letter)
        else st.greenLetters := by
  unfold visitCell
  simp only
  split_ifs <;> rfl

theorem visitCell_yellowLetters (st : Compiler) (p : Nat × Cell) :
    (visitCell st p).yellowLetters
      = if p.2.state = State.present then setAdd st.yellowLetters (toLowerCase p.2.letter)
        else st.yellowLetters := by
  unfold visitCell
  simp only
  split_ifs with h1 h2 <;> first | rfl | (rw [h1] at h2; exact absurd h2 (by decide))

theorem visitCell_grey (st : Compiler) (p : Nat × Cell) :
    (visitCell st p).feedback.grey
      = if p.2.state = State.absent ∧ toLowerCase p.2.letter ∉ st.greenLetters
            ∧ toLowerCase p.2.letter ∉ st.yellowLetters
            ∧ toLowerCase p.2.letter ∉ st.feedback.grey then
          st.feedback.grey ++ [toLowerCase p.2.letter]
        else st.feedback.grey := by
  by_cases ha : p.2.state = State.absent
  · have hc : ¬ p.2.state = State.correct := by rw [ha]; decide
    have hp : ¬ p.2.state = State.present := by rw [ha]; decide
    have hR : ∀ (a b : List Char),
        (if p.2.state = State.absent ∧ toLowerCase p.2.letter ∉ st.greenLetters
            ∧ toLowerCase p.2.letter ∉ st.yellowLetters
            ∧ toLowerCase p.2.letter ∉ st.feedback.grey then a else b)
        = (if toLowerCase p.2.letter ∉ st.greenLetters
            ∧ toLowerCase p.2.letter ∉ st.yellowLetters
            ∧ toLowerCase p.2.letter ∉ st.feedback.grey then a else b) := by
      intro a b
      simp only [ha, true_and]
    rw [hR]
    unfold visitCell
    simp only
    rw [if_neg hc, if_neg hp, if_pos ha]
    by_cases hcond : toLowerCase p.2.letter ∉ st.greenLetters
        ∧ toLowerCase p.2.letter ∉ st.yellowLetters
        ∧ toLowerCase p.2.letter ∉ st.feedback.grey
    · have h1 : ¬ (toLowerCase p.2.letter ∈ st.greenLetters
          ∨ toLowerCase p.2.letter ∈ st.yellowLetters)
          ∧ toLowerCase p.2.letter ∉ st.feedback.grey :=
        ⟨fun h => h.elim hcond.1 hcond.2.1, hcond.2.2⟩
      rw [if_pos h1, if_pos hcond]
    · have h1 : ¬ (¬ (toLowerCase p.2.letter ∈ st.greenLetters
          ∨ toLowerCase p.2.letter ∈ st.yellowLetters)
          ∧ toLowerCase p.2.letter ∉ st.feedback.grey) :=
        fun h => hcond ⟨fun hg => h.1 (Or.inl hg), fun hy => h.1 (Or.inr hy), h.2⟩
      rw [if_neg h1, if_neg hcond]
  · have hR : (if p.2.state = State.absent ∧ toLowerCase p.2.letter ∉ st.greenLetters
            ∧ toLowerCase p.2.letter ∉ st.yellowLetters
            ∧ toLowerCase p.2.letter ∉ st.feedback.grey then
          st.feedback.grey ++ [toLowerCase p.2.letter]
        else st.feedback.grey) = st.feedback.grey := if_neg (fun h => ha h.1)
    rw [hR]
    unfold visitCell
    simp only [ha, if_false]
    split_ifs <;> rfl

theorem observes_iff (L : Char) (cell : Cell) :
    observes L cell = true ↔
      toLowerCase cell.letter = L ∧
        (cell.state = State.correct ∨ cell.state = State.present
          ∨ cell.state = State.absent) := by
  unfold observes
  simp only [Bool.and_eq_true, Bool.or_eq_true, decide_eq_true_eq, or_assoc]

theorem firstVerdict_concat (cells : List Cell) (c : Cell) (L : Char) :
    firstVerdict (cells ++ [c]) L
      = match firstVerdict cells L with
        | some s => some s
        | none => if observes L c = true then some c.state else none := by
  unfold firstVerdict
  rw [List.find?_append]
  cases h : List.find? (observes L) cells with
  | some x => simp
  | none =>
    by_cases ho : observes L c = true
    · simp [List.find?_cons, ho]
    · have ho' : observes L c = false := by
        cases hb : observes L c
        · rfl
        · exact absurd hb ho
      simp [List.find?_cons, ho']

theorem firstVerdict_eq_none_iff (cells : List Cell) (L : Char) :
    firstVerdict cells L = none ↔ ∀ c ∈ cells, ¬ observes L c = true := by
  unfold firstVerdict
  rw [Option.map_eq_none', List.find?_eq_none]

theorem firstVerdict_some_spec (cells : List Cell) (L : Char) (s : State)
    (h : firstVerdict cells L = some s) :
    (s = State.correct ∨ s = State.present ∨ s = State.absent) ∧
      ∃ c ∈ cells, toLowerCase c.letter = L ∧ c.state = s := by
  unfold firstVerdict at h
  cases hf : List.find? (observes L) cells with
  | none => rw [hf] at h; exact Option.noConfusion h
  | some x =>
    rw [hf] at h
    simp only [Option.map_some', Option.some.injEq] at h
    have hobs := (observes_iff L x).1 (List.find?_some hf)
    have hmem := List.mem_of_find?_eq_some hf
    rw [h] at hobs
    exact ⟨hobs.2, x, hmem, hobs.1, h⟩

theorem mem_absentLetters (cells : List Cell) (L : Char) :
    L ∈ absentLetters cells ↔
      ∃ c ∈ cells, c.state = State.absent ∧ toLowerCase c.letter = L := by
  unfold absentLetters
  simp only [List.mem_map, List.mem_filter, decide_eq_true_eq]
  constructor
  · rintro ⟨c, ⟨hc, hs⟩, hl⟩
    exact ⟨c, hc, hs, hl⟩
  · rintro ⟨c, hc, hs, hl⟩
    exact ⟨c, ⟨hc, hs⟩, hl⟩

theorem absentLetters_concat (cells : List Cell) (c : Cell) :
    absentLetters (cells ++ [c])
      = absentLetters cells
        ++ (if c.state = State.absent then [toLowerCase c.letter] else []) := by
  unfold absentLetters
  rw [List.filter_append, List.map_append]
  by_cases h : c.state = State.absent
  · simp [List.filter_cons, h]
  · simp [List.filter_cons, h]

theorem firstVerdict_of_mem_absentLetters (cells : List Cell) (L : Char)
    (h : L ∈ absentLetters cells) : ∃ s, firstVerdict cells L = some s := by
  obtain ⟨c, hc, hs, hl⟩ := (mem_absentLetters cells L).1 h
  cases hf : firstVerdict cells L with
  | some s => exact ⟨s, rfl⟩
  | none =>
    have := (firstVerdict_eq_none_iff cells L).1 hf c hc
    exact absurd ((observes_iff L c).2 ⟨hl, Or.inr (Or.inr hs)⟩) this

theorem firstVerdict_concat_of_absent (cells : List Cell) (c : Cell) (L : Char)
    (h : L ∈ absentLetters cells) :
    firstVerdict (cells ++ [c]) L = firstVerdict cells L := by
  obtain ⟨s, hs⟩ := firstVerdict_of_mem_absentLetters cells L h
  rw [firstVerdict_concat, hs]

theorem expectedGrey_filter_concat (cells : List Cell) (c : Cell) :
    (firstOccurrences (absentLetters cells)).filter
        (fun L => decide (firstVerdict (cells ++ [c]) L = some State.absent))
      = expectedGrey cells := by
  unfold expectedGrey
  apply List.filter_congr
  intro L hL
  rw [firstVerdict_concat_of_absent cells c L ((mem_firstOccurrences _ _).1 hL)]

theorem mem_expectedGrey (cells : List Cell) (L : Char) :
    L ∈ expectedGrey cells ↔ firstVerdict cells L = some State.absent := by
  unfold expectedGrey
  rw [List.mem_filter, mem_firstOccurrences, decide_eq_true_eq]
  constructor
  · exact fun h => h.2
  · intro h
    refine ⟨?_, h⟩
    obtain ⟨_, c, hc, hl, hs⟩ := firstVerdict_some_spec cells L _ h
    exact (mem_absentLetters cells L).2 ⟨c, hc, hs, hl⟩

theorem nodup_expectedGrey (cells : List Cell) : (expectedGrey cells).Nodup := by
  unfold expectedGrey
  exact (nodup_firstOccurrences _).filter _

theorem mem_concat_cells (cells : List Cell) (c : Cell) (P : Cell → Prop) :
    (∃ x ∈ cells ++ [c], P x) ↔ (∃ x ∈ cells, P x) ∨ P c := by
  constructor
  · rintro ⟨x, hx, hP⟩
    rcases List.mem_append.1 hx with h | h
    · exact Or.inl ⟨x, h, hP⟩
    · rw [List.mem_singleton] at h
      rw [h] at hP
      exact Or.inr hP
  · rintro (⟨x, hx, hP⟩ | hP)
    · exact ⟨x, List.mem_append.2 (Or.inl hx), hP⟩
    · exact ⟨c, List.mem_append.2 (Or.inr (List.mem_singleton.2 rfl)), hP⟩

theorem compiler_sets (ps : List (Nat × Cell)) :
    (∀ l, l ∈ (ps.foldl visitCell emptyCompiler).greenLetters ↔
      ∃ c ∈ ps.map Prod.snd, c.state = State.correct ∧ toLowerCase c.letter = l) ∧
    (∀ l, l ∈ (ps.foldl visitCell emptyCompiler).yellowLetters ↔
      ∃ c ∈ ps.map Prod.snd, c.state = State.present ∧ toLowerCase c.letter = l) := by
  induction ps using List.reverseRecOn with
  | nil => simp [emptyCompiler]
  | append_singleton ps p ih =>
    obtain ⟨hg, hy⟩ := ih
    rw [List.foldl_append, List.map_append]
    simp only [List.foldl_cons, List.foldl_nil, List.map_cons, List.map_nil]
    constructor
    · intro l
      rw [visitCell_greenLetters, mem_concat_cells]
      by_cases hc : p.2.state = State.correct
      · rw [if_pos hc, mem_setAdd, hg l]
        constructor
        · rintro (h | h)
          · exact Or.inl h
          · exact Or.inr ⟨hc, h.symm⟩
        · rintro (h | h)
          · exact Or.inl h
          · exact Or.inr h.2.symm
      · rw [if_neg hc, hg l]
        constructor
        · exact Or.inl
        · rintro (h | h)
          · exact h
          · exact absurd h.1 hc
    · intro l
      rw [visitCell_yellowLetters, mem_concat_cells]
      by_cases hc : p.2.state = State.present
      · rw [if_pos hc, mem_setAdd, hy l]
        constructor
        · rintro (h | h)
          · exact Or.inl h
          · exact Or.inr ⟨hc, h.symm⟩
        · rintro (h | h)
          · exact Or.inl h
          · exact Or.inr h.2.symm
      · rw [if_neg hc, hy l]
        constructor
        · exact Or.inl
        · rintro (h | h)
          · exact h
          · exact absurd h.1 hc

theorem compiler_grey (ps : List (Nat × Cell)) :
    (ps.foldl visitCell emptyCompiler).feedback.grey = expectedGrey (ps.map Prod.snd) := by
  induction ps using List.reverseRecOn with
  | nil => simp [emptyCompiler, expectedGrey, absentLetters, firstOccurrences]
  | append_singleton ps p ih =>
    obtain ⟨hg, hy⟩ := compiler_sets ps
    rw [List.foldl_append, List.map_append]
    simp only [List.foldl_cons, List.foldl_nil, List.map_cons, List.map_nil]
    rw [visitCell_grey, ih]
    have hsplit : expectedGrey (ps.map Prod.snd ++ [p.2])
        = (firstOccurrences (absentLetters (ps.map Prod.snd)
            ++ (if p.2.state = State.absent then [toLowerCase p.2.letter] else []))).filter
            (fun L => decide (firstVerdict (ps.map Prod.snd ++ [p.2]) L = some State.absent)) := by
      unfold expectedGrey
      rw [absentLetters_concat]
    rw [hsplit]
    by_cases ha : p.2.state = State.absent
    · rw [if_pos ha, firstOccurrences_concat]
      by_cases hmem : toLowerCase p.2.letter ∈ absentLetters (ps.map Prod.snd)
      · have hadd : setAdd (firstOccurrences (absentLetters (ps.map Prod.snd)))
            (toLowerCase p.2.letter) = firstOccurrences (absentLetters (ps.map Prod.snd)) := by
          unfold setAdd
          rw [if_pos ((mem_firstOccurrences _ _).2 hmem)]
        rw [hadd, expectedGrey_filter_concat]
        have hcond : ¬ (p.2.state = State.absent
            ∧ toLowerCase p.2.letter ∉ (ps.foldl visitCell emptyCompiler).greenLetters
            ∧ toLowerCase p.2.letter ∉ (ps.foldl visitCell emptyCompiler).yellowLetters
            ∧ toLowerCase p.2.letter ∉ expectedGrey (ps.map Prod.snd)) := by
          rintro ⟨_, hng, hny, hngrey⟩
          obtain ⟨s, hs⟩ := firstVerdict_of_mem_absentLetters _ _ hmem
          obtain ⟨hkind, c, hc, hl, hcs⟩ := firstVerdict_some_spec _ _ s hs
          rcases hkind with h | h | h
          · exact hng ((hg _).2 ⟨c, hc, by rw [hcs, h], hl⟩)
          · exact hny ((hy _).2 ⟨c, hc, by rw [hcs, h], hl⟩)
          · exact hngrey ((mem_expectedGrey _ _).2 (by rw [hs, h]))
        rw [if_neg hcond]
      · have hadd : setAdd (firstOccurrences (absentLetters (ps.map Prod.snd)))
            (toLowerCase p.2.letter)
            = firstOccurrences (absentLetters (ps.map Prod.snd)) ++ [toLowerCase p.2.letter] := by
          unfold setAdd
          rw [if_neg (fun h => hmem ((mem_firstOccurrences _ _).1 h))]
        rw [hadd, List.filter_append, expectedGrey_filter_concat]
        have hobs : observes (toLowerCase p.2.letter) p.2 = true :=
          (observes_iff _ _).2 ⟨rfl, Or.inr (Or.inr ha)⟩
        cases hfv : firstVerdict (ps.map Prod.snd) (toLowerCase p.2.letter) with
        | none =>
          have hnone := (firstVerdict_eq_none_iff _ _).1 hfv
          have hnew : firstVerdict (ps.map Prod.snd ++ [p.2]) (toLowerCase p.2.letter)
              = some State.absent := by
            rw [firstVerdict_concat, hfv]
            simp only [hobs, if_true, ha]
          have hcond : p.2.state = State.absent
              ∧ toLowerCase p.2.letter ∉ (ps.foldl visitCell emptyCompiler).greenLetters
              ∧ toLowerCase p.2.letter ∉ (ps.foldl visitCell emptyCompiler).yellowLetters
              ∧ toLowerCase p.2.letter ∉ expectedGrey (ps.map Prod.snd) := by
            refine ⟨ha, fun h => ?_, fun h => ?_, fun h => ?_⟩
            · obtain ⟨c, hc, hs, hl⟩ := (hg _).1 h
              exact hnone c hc ((observes_iff _ _).2 ⟨hl, Or.inl hs⟩)
            · obtain ⟨c, hc, hs, hl⟩ := (hy _).1 h
              exact hnone c hc ((observes_iff _ _).2 ⟨hl, Or.inr (Or.inl hs)⟩)
            · rw [mem_expectedGrey, hfv] at h
              exact Option.noConfusion h
          rw [if_pos hcond]
          simp [List.filter_cons, hnew]
        | some s =>
          obtain ⟨hkind, c, hc, hl, hcs⟩ := firstVerdict_some_spec _ _ s hfv
          have hsne : s ≠ State.absent := by
            intro hs
            exact hmem ((mem_absentLetters _ _).2 ⟨c, hc, by rw [hcs, hs], hl⟩)
          have hnew : firstVerdict (ps.map Prod.snd ++ [p.2]) (toLowerCase p.2.letter)
              ≠ some State.absent := by
            rw [firstVerdict_concat, hfv]
            exact fun h => hsne (Option.some.inj h)
          have hcond : ¬ (p.2.state = State.absent
              ∧ toLowerCase p.2.letter ∉ (ps.foldl visitCell emptyCompiler).greenLetters
              ∧ toLowerCase p.2.letter ∉ (ps.foldl visitCell emptyCompiler).yellowLetters
              ∧ toLowerCase p.2.letter ∉ expectedGrey (ps.map Prod.snd)) := by
            rintro ⟨_, hng, hny, _⟩
            rcases hkind with h | h | h
            · exact hng ((hg _).2 ⟨c, hc, by rw [hcs, h], hl⟩)
            · exact hny ((hy _).2 ⟨c, hc, by rw [hcs, h], hl⟩)
            · exact hsne h
          rw [if_neg hcond]
          simp [List.filter_cons, hnew]
    · rw [if_neg ha, List.append_nil, expectedGrey_filter_concat, if_neg (fun h => ha h.1)]

theorem foldl_visitRow_flatten (results : List (List Cell)) (st : Compiler) :
    results.foldl visitRow st
      = ((results.map List.enum).flatten).foldl visitCell st := by
  rw [List.foldl_flatten, List.foldl_map]
  rfl

theorem flatten_enum_cells (results : List (List Cell)) :
    ((results.map List.enum).flatten).map Prod.snd = results.flatten := by
  rw [List.map_flatten, List.map_map]
  congr 1
  induction results with
  | nil => rfl
  | cons row rest ih =>
    simp only [List.map_cons, Function.comp_apply, List.enum_map_snd, ih]

theorem buildFeedback_grey (results : List (List Cell)) :
    (buildFeedback results).grey = expectedGrey results.flatten := by
  have h := compiler_grey ((results.map List.enum).flatten)
  rw [flatten_enum_cells, ← foldl_visitRow_flatten] at h
  exact h

/-! ## Claim on the grey letters -/

/-- C21. For every history, read in row-major order (rows in order, cells left to
right): a lowercased letter `L` is in `grey` if and only if the first cell that carries
`L` with one of the states `correct`, `present`, `absent` has the state `absent`; `grey`
has no letter twice; and `grey` lists those letters in the order of their first `absent`
cell. -/
theorem buildFeedback_grey_exact (results : List (List Cell)) :
    (∀ L, L ∈ (buildFeedback results).grey ↔
      firstVerdict results.flatten L = some State.absent) ∧
    (buildFeedback results).grey.Nodup ∧
    (buildFeedback results).grey
      = (firstOccurrences (absentLetters results.flatten)).filter
          (fun L => decide (firstVerdict results.flatten L = some State.absent)) := by
  refine ⟨fun L => ?_, ?_, ?_⟩
  · rw [buildFeedback_grey, mem_expectedGrey]
  · rw [buildFeedback_grey]
    exact nodup_expectedGrey _
  · rw [buildFeedback_grey]
    rfl


end Wordle
